import Mathlib

/-!
Verification of the `pinkerton/crawler` Go web crawler.

This file shallowly embeds the crawler's data model and operations
(`crawler.go`, `utils.go`) in Lean 4 and proves the specification claims
about them.

Modelling conventions:
* Go's `url.URL` is modelled by the `URL` structure below, keeping the
  fields the crawler reads or writes (`Scheme`, `Host`, `Path`) together
  with `Query`/`Fragment` (needed to express claims about path-based
  sitemap keys).
* Go maps are modelled as functions `String → Option Webpage`; Go's
  zero value `Webpage{}` is `zeroWebpage`.
* `url.Parse` and `http.Get` are external capabilities and appear as
  oracle parameters (`up : String → Option URL`, a parse failure being
  `none`, and `ft : URL → Option (List Tok)`, a network failure being
  `none`).
* The HTML tokenizer (`golang.org/x/net/html`) is modelled by a token
  stream `List Tok`; `Tok.errorTok eof` is the tokenizer's `ErrorToken`,
  whose flag records whether the underlying error was a normal
  end-of-input (`true`) or a genuine failure (`false`).  The Go code
  never inspects `z.Err()`, and correspondingly the embedded
  `ParseAssets` ignores the flag.
* Panics (`panic(err)` in `GetAttrURL`) are modelled with
  `Except Unit`, `.error ()` being an escaping panic.
-/

/-- Model of Go's `url.URL` restricted to the fields the crawler uses. -/
structure URL where
  scheme : String
  host : String
  path : String
  query : String
  fragment : String
deriving DecidableEq, Repr

/-- Model of the `Webpage` struct of `crawler.go`: a page URL, its
same-host links and its static assets. -/
structure Webpage where
  url : URL
  links : List URL
  assets : List String
deriving DecidableEq, Repr

/-- Go's zero value `url.URL{}`. -/
def zeroURL : URL := ⟨"", "", "", "", ""⟩

/-- Go's zero value `Webpage{}` (empty URL, nil Links, nil Assets),
inserted as a placeholder by `IndexWorker`. -/
def zeroWebpage : Webpage := ⟨zeroURL, [], []⟩

/-- The key under which `IndexWorker` stores and looks up a page:
`page.URL.Path` resp. `link.Path` (crawler.go lines 190 and 204). -/
def sitemapKey (u : URL) : String := u.path

/-- Embeds `SameHost` of utils.go: `u.Host == v.Host`. -/
def SameHost (u v : URL) : Bool := u.host == v.host

/-- Go's `url.URL.IsAbs`: the URL has a nonempty scheme. -/
def URL.IsAbs (u : URL) : Bool := u.scheme != ""

/-- Embeds `RelToAbsURL` of utils.go: a non-absolute link receives the
host of the page it appeared on (the mutation is modelled by returning
the updated URL). -/
def RelToAbsURL (host link : URL) : URL :=
  if link.IsAbs then link else { link with host := host.host }

/-- Embeds `FixScheme` of utils.go: URLs without a scheme get "http". -/
def FixScheme (link : URL) : URL :=
  if link.scheme = "" then { link with scheme := "http" } else link

/-- Rendering of a `URL` as a string, mirroring Go's `url.URL.String`
on the modelled fields (scheme, host, path, query, fragment; the
crawler never builds URLs with user info or opaque data). -/
def urlString (u : URL) : String :=
  (if u.scheme = "" then "" else u.scheme ++ ":") ++
  (if u.host = "" then "" else "//" ++ u.host) ++
  u.path ++
  (if u.query = "" then "" else "?" ++ u.query) ++
  (if u.fragment = "" then "" else "#" ++ u.fragment)

/-- Tag names the `ParseAssets` switch distinguishes (`atom.A`,
`atom.Img`, `atom.Script`, `atom.Link`); every other start tag falls
through the switch. -/
inductive TagName where
  | a | img | script | link | otherTag
deriving DecidableEq, Repr

/-- Model of the HTML token stream produced by
`html.NewTokenizer(...)`: start tags with their attribute list, any
other non-error token, and the terminating `ErrorToken` (whose `eof`
flag tells a normal end-of-input apart from a genuine tokenizer
failure; the Go code never inspects it). -/
inductive Tok where
  | startTag (tag : TagName) (attrs : List (String × String))
  | otherTok
  | errorTok (eof : Bool)
deriving DecidableEq, Repr

/-- Embeds `GetAttr` of utils.go: the value of the first attribute with
the given key, `none` standing for the "key not found" error. -/
def GetAttr (attrs : List (String × String)) (key : String) : Option String :=
  match attrs with
  | [] => none
  | (k, v) :: rest => if k = key then some v else GetAttr rest key

/-- Embeds `GetAttrURL` of utils.go.  Outcomes: `.ok none` — the
attribute is missing and the "key not found" error is returned to the
caller; `.error ()` — `url.Parse` failed and the function panics;
`.ok (some link)` — the parsed URL after `RelToAbsURL` and
`FixScheme`. -/
def GetAttrURL (up : String → Option URL) (host : URL)
    (attrs : List (String × String)) (key : String) : Except Unit (Option URL) :=
  match GetAttr attrs key with
  | none => .ok none
  | some val =>
    match up val with
    | none => .error ()
    | some link => .ok (some (FixScheme (RelToAbsURL host link)))

/-- Embeds the tokenizer loop of `ParseAssets` of utils.go with its two
accumulators (`links`, `assets`).  Processing stops at the first
`ErrorToken` — regardless of whether it stands for end-of-input or a
failure — returning whatever was accumulated so far; a panic escaping
`GetAttrURL` propagates (the worker has no recover). -/
def ParseAssetsLoop (up : String → Option URL) (host : URL) :
    List Tok → List URL → List String → Except Unit (List URL × List String)
  | [], links, assets => .ok (links, assets)
  | .errorTok _ :: _, links, assets => .ok (links, assets)
  | .otherTok :: rest, links, assets => ParseAssetsLoop up host rest links assets
  | .startTag tag attrs :: rest, links, assets =>
    match tag with
    | .a =>
      match GetAttrURL up host attrs "href" with
      | .error _ => .error ()
      | .ok none => ParseAssetsLoop up host rest links assets
      | .ok (some href) =>
        if SameHost host href && decide (0 < (urlString href).length) then
          ParseAssetsLoop up host rest (links ++ [FixScheme href]) assets
        else
          ParseAssetsLoop up host rest links assets
    | .img =>
      match GetAttrURL up host attrs "src" with
      | .error _ => .error ()
      | .ok none => ParseAssetsLoop up host rest links assets
      | .ok (some src) =>
        if SameHost host src then
          ParseAssetsLoop up host rest links (assets ++ [urlString src])
        else
          ParseAssetsLoop up host rest links assets
    | .script =>
      match GetAttrURL up host attrs "src" with
      | .error _ => .error ()
      | .ok none => ParseAssetsLoop up host rest links assets
      | .ok (some src) =>
        if SameHost host src then
          ParseAssetsLoop up host rest links (assets ++ [urlString src])
        else
          ParseAssetsLoop up host rest links assets
    | .link =>
      match GetAttrURL up host attrs "href" with
      | .error _ => .error ()
      | .ok none => ParseAssetsLoop up host rest links assets
      | .ok (some href) =>
        if SameHost host href then
          ParseAssetsLoop up host rest links (assets ++ [urlString href])
        else
          ParseAssetsLoop up host rest links assets
    | .otherTag => ParseAssetsLoop up host rest links assets

/-- Embeds `ParseAssets` of utils.go: parse links and static assets out
of the token stream of an HTML document fetched from `host`. -/
def ParseAssets (up : String → Option URL) (host : URL) (toks : List Tok) :
    Except Unit (List URL × List String) :=
  ParseAssetsLoop up host toks [] []

/-- Embeds `AllValuesEqual` of utils.go over the association-list model
of `map[int]bool`. -/
def AllValuesEqual (items : List (Nat × Bool)) (value : Bool) : Bool :=
  items.all (fun kv => kv.2 == value)

example : GetAttr [("id", "x"), ("href", "/y")] "href" = some "/y" := by decide

example :
    ParseAssets (fun s => if s = "/y" then some ⟨"", "", "/y", "", ""⟩ else none)
      ⟨"http", "h.io", "/", "", ""⟩
      [.startTag .a [("href", "/y")], .errorTok true] =
    .ok ([⟨"http", "h.io", "/y", "", ""⟩], []) := by
  simp [ParseAssets, ParseAssetsLoop, GetAttrURL, GetAttr, RelToAbsURL, FixScheme,
    URL.IsAbs, SameHost, urlString]
  decide

/-! ## Lemmas about the parsing helpers -/

/-- SameHost is host equality. -/
theorem SameHost_iff (u v : URL) : SameHost u v = true ↔ u.host = v.host := by
  simp [SameHost]

/-- FixScheme does not change the host. -/
theorem FixScheme_host (u : URL) : (FixScheme u).host = u.host := by
  unfold FixScheme; split <;> rfl

/-- GetAttrURL only reads the host of the page URL. -/
theorem GetAttrURL_host_congr (up : String → Option URL) (u v : URL)
    (h : u.host = v.host) (attrs : List (String × String)) (key : String) :
    GetAttrURL up u attrs key = GetAttrURL up v attrs key := by
  cases hg : GetAttr attrs key with
  | none => simp [GetAttrURL, hg]
  | some val =>
    cases hu : up val with
    | none => simp [GetAttrURL, hg, hu]
    | some link => simp [GetAttrURL, hg, hu, RelToAbsURL, h]

/-- Every link accumulated by the ParseAssets loop has the host of the
page being parsed. -/
theorem ParseAssetsLoop_host (up : String → Option URL) (host : URL) :
    ∀ (toks : List Tok) (links : List URL) (assets : List String)
      (ls : List URL) (as : List String),
    ParseAssetsLoop up host toks links assets = .ok (ls, as) →
    (∀ l ∈ links, l.host = host.host) → ∀ l ∈ ls, l.host = host.host := by
  intro toks
  induction toks with
  | nil =>
    intro links assets ls as h hl
    simp only [ParseAssetsLoop, Except.ok.injEq, Prod.mk.injEq] at h
    exact h.1 ▸ hl
  | cons t ts ih =>
    intro links assets ls as h hl
    cases t with
    | otherTok => exact ih links assets ls as h hl
    | errorTok e =>
      simp only [ParseAssetsLoop, Except.ok.injEq, Prod.mk.injEq] at h
      exact h.1 ▸ hl
    | startTag tag attrs =>
      cases tag with
      | a =>
        cases hg : GetAttrURL up host attrs "href" with
        | error e => simp [ParseAssetsLoop, hg] at h
        | ok o =>
          cases o with
          | none =>
            simp only [ParseAssetsLoop, hg] at h
            exact ih links assets ls as h hl
          | some href =>
            simp only [ParseAssetsLoop, hg] at h
            by_cases hc : (SameHost host href && decide (0 < (urlString href).length)) = true
            · rw [if_pos hc] at h
              refine ih _ assets ls as h ?_
              intro l hmem
              rcases List.mem_append.mp hmem with hm | hm
              · exact hl l hm
              · have hc' : SameHost host href = true := by
                  simp only [Bool.and_eq_true] at hc; exact hc.1
                have : l = FixScheme href := by simpa using hm
                subst this
                rw [FixScheme_host]
                exact ((SameHost_iff host href).mp hc').symm
            · rw [if_neg hc] at h
              exact ih links assets ls as h hl
      | img =>
        cases hg : GetAttrURL up host attrs "src" with
        | error e => simp [ParseAssetsLoop, hg] at h
        | ok o =>
          cases o with
          | none =>
            simp only [ParseAssetsLoop, hg] at h
            exact ih links assets ls as h hl
          | some src =>
            simp only [ParseAssetsLoop, hg] at h
            split at h <;> exact ih links _ ls as h hl
      | script =>
        cases hg : GetAttrURL up host attrs "src" with
        | error e => simp [ParseAssetsLoop, hg] at h
        | ok o =>
          cases o with
          | none =>
            simp only [ParseAssetsLoop, hg] at h
            exact ih links assets ls as h hl
          | some src =>
            simp only [ParseAssetsLoop, hg] at h
            split at h <;> exact ih links _ ls as h hl
      | link =>
        cases hg : GetAttrURL up host attrs "href" with
        | error e => simp [ParseAssetsLoop, hg] at h
        | ok o =>
          cases o with
          | none =>
            simp only [ParseAssetsLoop, hg] at h
            exact ih links assets ls as h hl
          | some href =>
            simp only [ParseAssetsLoop, hg] at h
            split at h <;> exact ih links _ ls as h hl
      | otherTag => exact ih links assets ls as h hl

/-- Every link extracted by ParseAssets has the host of the page it was
parsed from (the cross-host filter of utils.go). -/
theorem ParseAssets_host (up : String → Option URL) (host : URL)
    (toks : List Tok) (ls : List URL) (as : List String)
    (h : ParseAssets up host toks = .ok (ls, as)) :
    ∀ l ∈ ls, l.host = host.host :=
  ParseAssetsLoop_host up host toks [] [] ls as h (by simp)

/-- The ParseAssets loop only reads the host of the page URL. -/
theorem ParseAssetsLoop_host_congr (up : String → Option URL) (u v : URL)
    (h : u.host = v.host) :
    ∀ (toks : List Tok) (links : List URL) (assets : List String),
    ParseAssetsLoop up u toks links assets = ParseAssetsLoop up v toks links assets := by
  intro toks
  induction toks with
  | nil => intro links assets; rfl
  | cons t ts ih =>
    intro links assets
    cases t with
    | otherTok => exact ih links assets
    | errorTok e => rfl
    | startTag tag attrs =>
      have hsame : ∀ w : URL, SameHost u w = SameHost v w := by
        intro w; simp [SameHost, h]
      cases tag with
      | a =>
        have hga := GetAttrURL_host_congr up u v h attrs "href"
        cases hg : GetAttrURL up v attrs "href" with
        | error e => simp [ParseAssetsLoop, hga, hg]
        | ok o =>
          cases o with
          | none =>
            simp only [ParseAssetsLoop, hga, hg]
            exact ih links assets
          | some href =>
            simp only [ParseAssetsLoop, hga, hg, hsame]
            split
            next hcc => exact ih _ assets
            next hcc => exact ih links assets
      | img =>
        have hga := GetAttrURL_host_congr up u v h attrs "src"
        cases hg : GetAttrURL up v attrs "src" with
        | error e => simp [ParseAssetsLoop, hga, hg]
        | ok o =>
          cases o with
          | none =>
            simp only [ParseAssetsLoop, hga, hg]
            exact ih links assets
          | some src =>
            simp only [ParseAssetsLoop, hga, hg, hsame]
            split
            next hcc => exact ih links _
            next hcc => exact ih links assets
      | script =>
        have hga := GetAttrURL_host_congr up u v h attrs "src"
        cases hg : GetAttrURL up v attrs "src" with
        | error e => simp [ParseAssetsLoop, hga, hg]
        | ok o =>
          cases o with
          | none =>
            simp only [ParseAssetsLoop, hga, hg]
            exact ih links assets
          | some src =>
            simp only [ParseAssetsLoop, hga, hg, hsame]
            split
            next hcc => exact ih links _
            next hcc => exact ih links assets
      | link =>
        have hga := GetAttrURL_host_congr up u v h attrs "href"
        cases hg : GetAttrURL up v attrs "href" with
        | error e => simp [ParseAssetsLoop, hga, hg]
        | ok o =>
          cases o with
          | none =>
            simp only [ParseAssetsLoop, hga, hg]
            exact ih links assets
          | some href =>
            simp only [ParseAssetsLoop, hga, hg, hsame]
            split
            next hcc => exact ih links _
            next hcc => exact ih links assets
      | otherTag => exact ih links assets

theorem ParseAssets_host_congr (up : String → Option URL) (u v : URL)
    (h : u.host = v.host) (toks : List Tok) :
    ParseAssets up u toks = ParseAssets up v toks :=
  ParseAssetsLoop_host_congr up u v h toks [] []

/-- Tokenization stops at the first error token: everything after it is
ignored, and whatever was accumulated before it is returned. -/
theorem ParseAssetsLoop_append_error (up : String → Option URL) (host : URL)
    (b : Bool) (rest : List Tok) :
    ∀ (toks : List Tok) (links : List URL) (assets : List String),
    ParseAssetsLoop up host (toks ++ .errorTok b :: rest) links assets =
      ParseAssetsLoop up host toks links assets := by
  intro toks
  induction toks with
  | nil => intro links assets; rfl
  | cons t ts ih =>
    intro links assets
    cases t with
    | otherTok => exact ih links assets
    | errorTok e => rfl
    | startTag tag attrs =>
      cases tag with
      | a =>
        cases hg : GetAttrURL up host attrs "href" with
        | error e => simp [ParseAssetsLoop, hg]
        | ok o =>
          cases o with
          | none =>
            simp only [List.cons_append, ParseAssetsLoop, hg]
            exact ih links assets
          | some href =>
            simp only [List.cons_append, ParseAssetsLoop, hg]
            split
            next hcc => exact ih _ assets
            next hcc => exact ih links assets
      | img =>
        cases hg : GetAttrURL up host attrs "src" with
        | error e => simp [ParseAssetsLoop, hg]
        | ok o =>
          cases o with
          | none =>
            simp only [List.cons_append, ParseAssetsLoop, hg]
            exact ih links assets
          | some src =>
            simp only [List.cons_append, ParseAssetsLoop, hg]
            split
            next hcc => exact ih links _
            next hcc => exact ih links assets
      | script =>
        cases hg : GetAttrURL up host attrs "src" with
        | error e => simp [ParseAssetsLoop, hg]
        | ok o =>
          cases o with
          | none =>
            simp only [List.cons_append, ParseAssetsLoop, hg]
            exact ih links assets
          | some src =>
            simp only [List.cons_append, ParseAssetsLoop, hg]
            split
            next hcc => exact ih links _
            next hcc => exact ih links assets
      | link =>
        cases hg : GetAttrURL up host attrs "href" with
        | error e => simp [ParseAssetsLoop, hg]
        | ok o =>
          cases o with
          | none =>
            simp only [List.cons_append, ParseAssetsLoop, hg]
            exact ih links assets
          | some href =>
            simp only [List.cons_append, ParseAssetsLoop, hg]
            split
            next hcc => exact ih links _
            next hcc => exact ih links assets
      | otherTag => exact ih links assets

/-! ## The quiescence monitor (`MonitorCrawler` of crawler.go)

The monitor's loop body is modelled as a step function on its local
state, driven by an input: either a status message received from
`msgs` (the `case msg := <-msgs` branch) or a cycle through the
`default` branch carrying the current time (`tick now`).  The number
of `done <- true` sends performed by a step is returned alongside the
new state.  The field `held` is a ghost observation, not present in
the Go code: it records whether every `default`-branch cycle since
`all_free` was last set observed the completion predicate to hold; no
step reads it. -/

/-- Constant `NumWorkers` of crawler.go. -/
def NumWorkers : Nat := 10

/-- Constant `TotalWorkers` of crawler.go: the number of spawned
workers (the dispatcher spawns `NumWorkers` RequestWorkers and
`NumWorkers` IndexWorkers). -/
def TotalWorkers : Nat := NumWorkers * 2

/-- Constant `TwoSeconds` of crawler.go (despite the name it equals
`3 * time.Second`; time is modelled in milliseconds). -/
def TwoSeconds : Nat := 3000

/-- Local state of `MonitorCrawler`: the status table `workers`
(association list modelling `map[int]bool`), the debounce flag
`all_free`, its `timestamp`, whether the loop has executed
`break Loop` (`stopped`), and the ghost flag `held`. -/
structure MonState where
  workers : List (Nat × Bool)
  all_free : Bool
  timestamp : Nat
  stopped : Bool
  held : Bool
deriving DecidableEq, Repr

/-- Go map update `workers[msg.ID] = msg.Busy` on the association-list
model. -/
def updWorker (w : List (Nat × Bool)) (id : Nat) (b : Bool) : List (Nat × Bool) :=
  if (w.lookup id).isSome then
    w.map (fun kv => if kv.1 = id then (id, b) else kv)
  else
    w ++ [(id, b)]

/-- The completion predicate of the monitor:
`len(workers) == TotalWorkers && AllValuesEqual(workers, false)`. -/
def monPred (w : List (Nat × Bool)) : Bool :=
  (w.length == TotalWorkers) && AllValuesEqual w false

/-- One input consumed by a monitor cycle: a pending status message, or
a pass through the `default` branch at the given current time. -/
inductive MonInput where
  | msg (id : Nat) (busy : Bool)
  | tick (now : Nat)
deriving DecidableEq, Repr

/-- One iteration of `MonitorCrawler`'s loop.  Returns the new state
and the number of termination signals sent (`done <- true`, executed
`len(workers)` times in the termination branch). -/
def MonitorStep (s : MonState) : MonInput → MonState × Nat
  | .msg id b => ({ s with workers := updWorker s.workers id b }, 0)
  | .tick now =>
    if monPred s.workers then
      if s.all_free && decide (TwoSeconds ≤ now - s.timestamp) then
        ({ s with stopped := true }, s.workers.length)
      else if !s.all_free then
        ({ s with all_free := true, timestamp := now, held := true }, 0)
      else (s, 0)
    else ({ s with all_free := false, held := false }, 0)

/-- Running the monitor loop over a list of inputs, accumulating the
termination signals sent.  After `break Loop` no further input is
consumed. -/
def MonitorRun (s : MonState) : List MonInput → MonState × Nat
  | [] => (s, 0)
  | i :: is =>
    if s.stopped then (s, 0)
    else
      let p := MonitorStep s i
      let q := MonitorRun p.1 is
      (q.1, p.2 + q.2)

/-- The monitor's initial state: empty table, `all_free = false`. -/
def monInit : MonState := ⟨[], false, 0, false, false⟩

/-- A stopped monitor consumes nothing and sends nothing. -/
theorem MonitorRun_stopped (s : MonState) (hs : s.stopped = true) :
    ∀ is : List MonInput, MonitorRun s is = (s, 0) := by
  intro is
  cases is with
  | nil => rfl
  | cons i is => simp [MonitorRun, hs]

/-- A monitor step sends signals only when it stops, and then it sends
`len(workers)` of them with the completion predicate, the debounce
flag and the elapsed-time test all observed to hold. -/
theorem MonitorStep_signals (s : MonState) (i : MonInput)
    (h : (MonitorStep s i).2 ≠ 0) :
    ∃ now, i = .tick now ∧ monPred s.workers = true ∧ s.all_free = true ∧
      TwoSeconds ≤ now - s.timestamp ∧
      (MonitorStep s i).1 = { s with stopped := true } ∧
      (MonitorStep s i).2 = s.workers.length := by
  cases i with
  | msg id b => simp [MonitorStep] at h
  | tick now =>
    refine ⟨now, rfl, ?_⟩
    by_cases hp : monPred s.workers = true
    · by_cases ha : (s.all_free && decide (TwoSeconds ≤ now - s.timestamp)) = true
      · have h1 := (Bool.and_eq_true _ _).mp ha
        refine ⟨hp, h1.1, of_decide_eq_true h1.2, ?_, ?_⟩ <;>
          simp [MonitorStep, hp, ha]
      · exfalso; apply h
        simp only [MonitorStep, if_pos hp, if_neg ha]
        split <;> rfl
    · exfalso; apply h
      simp [MonitorStep, hp]

/-- A monitor step that does not stop keeps `stopped = false` and sends
no signal. -/
theorem MonitorStep_no_stop (s : MonState) (i : MonInput)
    (hs : s.stopped = false) (h : ((MonitorStep s i).1).stopped = false) :
    (MonitorStep s i).2 = 0 := by
  by_cases hz : (MonitorStep s i).2 = 0
  · exact hz
  · obtain ⟨now, -, -, -, -, h5, -⟩ := MonitorStep_signals s i hz
    rw [h5] at h
    simp at h

/-- The ghost invariant: whenever the debounce flag is set, every
default-branch cycle since it was set observed the completion
predicate (`held`). -/
theorem MonitorStep_held (s : MonState) (i : MonInput)
    (h : s.all_free = true → s.held = true) :
    ((MonitorStep s i).1).all_free = true → ((MonitorStep s i).1).held = true := by
  cases i with
  | msg id b => simpa [MonitorStep] using h
  | tick now =>
    simp only [MonitorStep]
    by_cases hp : monPred s.workers = true
    · rw [if_pos hp]
      by_cases ha : (s.all_free && decide (TwoSeconds ≤ now - s.timestamp)) = true
      · rw [if_pos ha]; simpa using h
      · rw [if_neg ha]
        by_cases hf : s.all_free = true
        · simp [hf, h hf]
        · simp [hf]
    · rw [if_neg hp]; simp

/-- The ghost invariant along a whole run. -/
theorem MonitorRun_held (is : List MonInput) : ∀ s : MonState,
    (s.all_free = true → s.held = true) →
    (((MonitorRun s is).1).all_free = true → ((MonitorRun s is).1).held = true) := by
  induction is with
  | nil => intro s h; simpa [MonitorRun] using h
  | cons i is ih =>
    intro s h
    by_cases hs : s.stopped = true
    · simpa [MonitorRun, hs] using h
    · simp only [MonitorRun, if_neg hs]
      exact ih _ (MonitorStep_held s i h)

/-- A run that ends not-stopped sent no signal. -/
theorem MonitorRun_no_stop (is : List MonInput) : ∀ s : MonState,
    ((MonitorRun s is).1).stopped = false → (MonitorRun s is).2 = 0 := by
  induction is with
  | nil => intro s h; rfl
  | cons i is ih =>
    intro s h
    by_cases hs : s.stopped = true
    · simp [MonitorRun, hs]
    · have hsf : s.stopped = false := by simpa using hs
      simp only [MonitorRun, if_neg hs] at h ⊢
      have hstep : ((MonitorStep s i).1).stopped = false := by
        rcases Bool.eq_false_or_eq_true ((MonitorStep s i).1).stopped with hx | hx
        · rw [MonitorRun_stopped _ hx] at h
          exact absurd h (by simp [hx])
        · exact hx
      simp [MonitorStep_no_stop s i hsf hstep, ih _ h]

/-- Monitor runs compose over concatenated input lists. -/
theorem MonitorRun_append (as bs : List MonInput) : ∀ s : MonState,
    MonitorRun s (as ++ bs) =
      ((MonitorRun (MonitorRun s as).1 bs).1,
        (MonitorRun s as).2 + (MonitorRun (MonitorRun s as).1 bs).2) := by
  induction as with
  | nil => intro s; simp [MonitorRun]
  | cons a as ih =>
    intro s
    by_cases hs : s.stopped = true
    · rw [List.cons_append]
      rw [MonitorRun_stopped s hs (a :: as), MonitorRun_stopped s hs (a :: (as ++ bs))]
      rw [MonitorRun_stopped s hs bs]
      simp
    · rw [List.cons_append]
      simp only [MonitorRun, if_neg hs]
      rw [ih]
      ring_nf

/-- A monitor step that stops was a default-branch cycle observing the
completion predicate with the debounce flag set and the debounce
interval elapsed; it sends `len(workers)` termination signals. -/
theorem MonitorStep_stop (s : MonState) (i : MonInput)
    (hs : s.stopped = false) (h : ((MonitorStep s i).1).stopped = true) :
    ∃ now, i = .tick now ∧ monPred s.workers = true ∧ s.all_free = true ∧
      TwoSeconds ≤ now - s.timestamp ∧
      MonitorStep s i = ({ s with stopped := true }, s.workers.length) := by
  cases i with
  | msg id b => simp [MonitorStep, hs] at h
  | tick now =>
    refine ⟨now, rfl, ?_⟩
    by_cases hp : monPred s.workers = true
    · by_cases ha : (s.all_free && decide (TwoSeconds ≤ now - s.timestamp)) = true
      · have h1 := (Bool.and_eq_true _ _).mp ha
        exact ⟨hp, h1.1, of_decide_eq_true h1.2, by simp [MonitorStep, hp, ha]⟩
      · exfalso
        simp only [MonitorStep, if_pos hp, if_neg ha] at h
        split at h <;> simp [hs] at h
    · exfalso
      simp [MonitorStep, hp, hs] at h

/-- A run that ends stopped contains a unique stopping cycle; the run
up to it sent no signal. -/
theorem MonitorRun_stop_split : ∀ (is : List MonInput) (s : MonState),
    s.stopped = false → ((MonitorRun s is).1).stopped = true →
    ∃ is₁ now is₂ pre, is = is₁ ++ .tick now :: is₂ ∧
      MonitorRun s is₁ = (pre, 0) ∧ pre.stopped = false ∧
      monPred pre.workers = true ∧ pre.all_free = true ∧
      TwoSeconds ≤ now - pre.timestamp ∧
      MonitorRun s is = ({ pre with stopped := true }, pre.workers.length) := by
  intro is
  induction is with
  | nil =>
    intro s hs h
    simp [MonitorRun] at h
    rw [h] at hs
    exact absurd hs (by simp)
  | cons i is ih =>
    intro s hs h
    have hns : ¬ s.stopped = true := by simp [hs]
    simp only [MonitorRun, if_neg hns] at h
    rcases Bool.eq_false_or_eq_true ((MonitorStep s i).1).stopped with hx | hx
    · -- the first step already stops
      obtain ⟨now, hi, hp, ha, ht, hstep⟩ := MonitorStep_stop s i hs hx
      refine ⟨[], now, is, s, by simp [hi], rfl, hs, hp, ha, ht, ?_⟩
      simp only [MonitorRun, if_neg hns, hstep]
      rw [MonitorRun_stopped _ (by simp) is]
      simp
    · -- the first step does not stop; recurse
      have h2 : ((MonitorRun (MonitorStep s i).1 is).1).stopped = true := h
      obtain ⟨is₁, now, is₂, pre, heq, hrun, hps, hp, ha, ht, hfin⟩ :=
        ih (MonitorStep s i).1 hx h2
      refine ⟨i :: is₁, now, is₂, pre, by simp [heq], ?_, hps, hp, ha, ht, ?_⟩
      · simp only [MonitorRun, if_neg hns, hrun,
          MonitorStep_no_stop s i hs hx]
      · simp only [MonitorRun, if_neg hns, hfin,
          MonitorStep_no_stop s i hs hx]
        simp

/-- C4: the Monitor declares termination only when its status table
holds an entry for every spawned worker, every entry is Idle, the
tentatively-quiescent flag `all_free` is set, every default-branch
cycle since the flag was set observed the completion predicate
(ghost flag `held`), and the debounce interval has elapsed since the
flag was set; it then broadcasts exactly one termination signal per
spawned worker (`TotalWorkers` of them) and stops.  Furthermore any
cycle observing the completion predicate false clears the flag. -/
theorem MonitorCrawler_termination (is : List MonInput)
    (h : ((MonitorRun monInit is).1).stopped = true) :
    (MonitorRun monInit is).2 = TotalWorkers ∧
    (∃ is₁ now is₂ pre, is = is₁ ++ .tick now :: is₂ ∧
      MonitorRun monInit is₁ = (pre, 0) ∧
      pre.stopped = false ∧
      pre.workers.length = TotalWorkers ∧
      AllValuesEqual pre.workers false = true ∧
      pre.all_free = true ∧
      pre.held = true ∧
      TwoSeconds ≤ now - pre.timestamp ∧
      MonitorRun monInit is = ({ pre with stopped := true }, TotalWorkers)) ∧
    (∀ (st : MonState) (now2 : Nat), monPred st.workers = false →
      ((MonitorStep st (.tick now2)).1).all_free = false ∧
      ((MonitorStep st (.tick now2)).1).held = false) := by
  obtain ⟨is₁, now, is₂, pre, heq, hrun, hps, hp, ha, ht, hfin⟩ :=
    MonitorRun_stop_split is monInit rfl h
  have hsplit := (Bool.and_eq_true _ _).mp hp
  have hlen : pre.workers.length = TotalWorkers := by simpa using hsplit.1
  have hall : AllValuesEqual pre.workers false = true := hsplit.2
  have hheld : pre.held = true := by
    have hh := MonitorRun_held is₁ monInit (by intro hc; simp [monInit] at hc)
    rw [hrun] at hh
    exact hh ha
  refine ⟨by rw [hfin]; simpa using hlen,
    ⟨is₁, now, is₂, pre, heq, hrun, hps, hlen, hall, ha, hheld, ht,
      by rw [hfin, hlen]⟩, ?_⟩
  intro st now2 hpf
  constructor <;> simp [MonitorStep, hpf]

/-- A concrete monitor input sequence: all twenty workers report idle,
a cycle sets the debounce flag at time 0, and a cycle at time
`TwoSeconds` declares termination. -/
def monWitnessInputs : List MonInput :=
  ((List.range TotalWorkers).map (fun k => MonInput.msg k false)) ++
    [MonInput.tick 0, MonInput.tick TwoSeconds]

theorem MonitorCrawler_termination_witness :
    (MonitorRun monInit monWitnessInputs).2 = TotalWorkers :=
  (MonitorCrawler_termination monWitnessInputs (by decide)).1

/-! ## Lock-discipline event traces of `IndexWorker` (crawler.go 176-234) -/

/-- Primitive events of an `IndexWorker` iteration: acquiring and
releasing the Sitemap guard (`site.Lock.Lock()` / `Unlock()`), storing
under a key, and pushing a link onto the request queue
(`links <- link`). -/
inductive Ev where
  | acquire
  | release
  | store (k : String)
  | send (u : URL)
deriving DecidableEq, Repr

/-- Events emitted by the link loop of `IndexWorker` (crawler.go
196-223): cross-host links are skipped; for a same-host link the
membership check and placeholder insertion form one critical section
(`Lock; check; insert; Unlock`), and the queue push of a newly
discovered link follows after the release.  `keys` is the worker's
view of the sitemap key set. -/
def IndexLinkEvents (domain : URL) : List String → List URL → List Ev
  | _, [] => []
  | keys, l :: rest =>
    if SameHost l domain = false then IndexLinkEvents domain keys rest
    else if sitemapKey l ∈ keys then
      .acquire :: .release :: IndexLinkEvents domain keys rest
    else
      .acquire :: .store (sitemapKey l) :: .release :: .send l ::
        IndexLinkEvents domain (sitemapKey l :: keys) rest

/-- Events emitted by one `IndexWorker` page iteration (crawler.go
186-224): store the page under its path inside the guard, then run the
link loop. -/
def IndexPageEvents (domain : URL) (keys : List String) (pg : Webpage) : List Ev :=
  .acquire :: .store (sitemapKey pg.url) :: .release ::
    IndexLinkEvents domain (sitemapKey pg.url :: keys) pg.links

/-- Number of guard acquisitions in an event list. -/
def acqCount (evs : List Ev) : Nat :=
  evs.countP (fun e => match e with | .acquire => true | _ => false)

/-- Number of guard releases in an event list. -/
def relCount (evs : List Ev) : Nat :=
  evs.countP (fun e => match e with | .release => true | _ => false)

/-- In the link loop, every queue push happens with the guard free:
the prefix before any `send` event has as many releases as
acquisitions. -/
theorem IndexLinkEvents_send_unlocked (domain : URL) :
    ∀ (links : List URL) (keys : List String) (pre suf : List Ev) (u : URL),
    IndexLinkEvents domain keys links = pre ++ .send u :: suf →
    acqCount pre = relCount pre := by
  intro links
  induction links with
  | nil =>
    intro keys pre suf u h
    simp [IndexLinkEvents] at h
  | cons l rest ih =>
    intro keys pre suf u h
    by_cases h1 : SameHost l domain = false
    · simp only [IndexLinkEvents, if_pos h1] at h
      exact ih keys pre suf u h
    · simp only [IndexLinkEvents, if_neg h1] at h
      by_cases h2 : sitemapKey l ∈ keys
      · rw [if_pos h2] at h
        cases pre with
        | nil => simp at h
        | cons e1 pre1 =>
          cases pre1 with
          | nil => simp at h
          | cons e2 pre2 =>
            simp only [List.cons_append, List.cons.injEq] at h
            obtain ⟨he1, he2, h3⟩ := h
            have := ih keys pre2 suf u h3
            subst he1; subst he2
            simp [acqCount, relCount, List.countP_cons]
            exact this
      · rw [if_neg h2] at h
        cases pre with
        | nil => simp at h
        | cons e1 pre1 =>
          cases pre1 with
          | nil => simp at h
          | cons e2 pre2 =>
            cases pre2 with
            | nil => simp at h
            | cons e3 pre3 =>
              cases pre3 with
              | nil =>
                simp only [List.cons_append, List.nil_append, List.cons.injEq] at h
                obtain ⟨he1, he2, he3, -⟩ := h
                subst he1; subst he2; subst he3
                simp [acqCount, relCount, List.countP_cons]
              | cons e4 pre4 =>
                simp only [List.cons_append, List.cons.injEq] at h
                obtain ⟨he1, he2, he3, he4, h5⟩ := h
                have := ih (sitemapKey l :: keys) pre4 suf u h5
                subst he1; subst he2; subst he3; subst he4
                simp [acqCount, relCount, List.countP_cons]
                exact this

/-- C7: in every `IndexWorker` iteration the push of a newly
discovered link onto the request queue happens strictly after the
Sitemap guard has been released: at every `send` event of the
iteration's event trace, every acquisition of the guard has already
been matched by a release (the worker holds the guard at no send). -/
theorem IndexWorker_send_after_release (domain : URL) (keys : List String)
    (pg : Webpage) (pre suf : List Ev) (u : URL)
    (h : IndexPageEvents domain keys pg = pre ++ .send u :: suf) :
    acqCount pre = relCount pre := by
  unfold IndexPageEvents at h
  cases pre with
  | nil => simp at h
  | cons e1 pre1 =>
    cases pre1 with
    | nil => simp at h
    | cons e2 pre2 =>
      cases pre2 with
      | nil => simp at h
      | cons e3 pre3 =>
        simp only [List.cons_append, List.cons.injEq] at h
        obtain ⟨he1, he2, he3, h4⟩ := h
        have := IndexLinkEvents_send_unlocked domain pg.links
          (sitemapKey pg.url :: keys) pre3 suf u h4
        subst he1; subst he2; subst he3
        simp [acqCount, relCount, List.countP_cons]
        exact this

theorem IndexWorker_send_after_release_witness :
    acqCount [.acquire, .store "/", .release, .acquire, .store "/a", .release] =
      relCount [.acquire, .store "/", .release, .acquire, .store "/a", .release] :=
  IndexWorker_send_after_release ⟨"http", "h.io", "", "", ""⟩ []
    ⟨⟨"http", "h.io", "/", "", ""⟩, [⟨"http", "h.io", "/a", "", ""⟩], []⟩
    [.acquire, .store "/", .release, .acquire, .store "/a", .release] []
    ⟨"http", "h.io", "/a", "", ""⟩ (by decide)

/-! ## Parse-failure behaviour (claims C5 and C8) -/

/-- A concrete `url.Parse` oracle: parses the relative reference "/x"
and fails on everything else. -/
def c5up : String → Option URL :=
  fun s => if s = "/x" then some ⟨"", "", "/x", "", ""⟩ else none

/-- A concrete page URL. -/
def c5host : URL := ⟨"http", "h.io", "/", "", ""⟩

/-- A token stream that extracts one link and then hits a genuine
tokenizer failure (`errorTok false`). -/
def c5toks : List Tok := [.startTag .a [("href", "/x")], .errorTok false]

/-- C5 counterexample: on a response whose HTML tokenization fails
after one link was already extracted, ParseAssets returns that partial
link list — not the empty link/asset result the claim asserts. -/
theorem ParseAssets_failure_not_empty :
    ParseAssets c5up c5host c5toks = .ok ([⟨"http", "h.io", "/x", "", ""⟩], []) ∧
    ParseAssets c5up c5host c5toks ≠ .ok ([], []) := by
  have h1 : ParseAssets c5up c5host c5toks =
      .ok ([⟨"http", "h.io", "/x", "", ""⟩], []) := by
    simp [ParseAssets, ParseAssetsLoop, GetAttrURL, GetAttr, RelToAbsURL,
      FixScheme, URL.IsAbs, SameHost, c5up, c5host, c5toks, urlString]
    decide
  refine ⟨h1, ?_⟩
  rw [h1]
  intro hc
  simp at hc

/-- C5 (amended): a tokenizer failure is not an aborting error — the
parse stops at the failing token and the Page is built from the links
and assets accumulated before the failure (so the result is empty
exactly when the failure precedes any extraction, in particular when
it is the very first token). -/
theorem ParseAssets_failure_partial :
    (∀ (up : String → Option URL) (host : URL) (toks : List Tok) (b : Bool)
      (rest : List Tok),
      ParseAssets up host (toks ++ .errorTok b :: rest) = ParseAssets up host toks) ∧
    (∀ (up : String → Option URL) (host : URL) (b : Bool) (rest : List Tok),
      ParseAssets up host (.errorTok b :: rest) = .ok ([], [])) := by
  constructor
  · intro up host toks b rest
    exact ParseAssetsLoop_append_error up host b rest toks [] []
  · intro up host b rest
    rfl

/-- Embeds the processing step of `RequestWorker` for one link
(crawler.go lines 145-158): fetch the page (`http.Get`); on network
failure log and drop the URL returning no page; on success parse links
and assets and build the `Webpage`.  There is no recover in the worker
loop, so a panic escaping `ParseAssets` propagates. -/
def RequestWorkerProcess (up : String → Option URL) (ft : URL → Option (List Tok))
    (link : URL) : Except Unit (Option Webpage) :=
  match ft link with
  | none => .ok none
  | some toks =>
    match ParseAssets up link toks with
    | .error e => .error e
    | .ok (ls, as) => .ok (some ⟨link, ls, as⟩)

/-- C8: whenever an attribute value makes `url.Parse` fail, GetAttrURL
panics (`.error ()`) instead of returning the error; the panic
propagates through ParseAssets to the RequestWorker processing step,
which contains no recovery. -/
theorem GetAttrURL_panics_no_recover :
    (∀ (up : String → Option URL) (host : URL) (attrs : List (String × String))
      (key val : String), GetAttr attrs key = some val → up val = none →
      GetAttrURL up host attrs key = .error ()) ∧
    (∀ (up : String → Option URL) (host : URL) (attrs : List (String × String))
      (rest : List Tok) (val : String),
      GetAttr attrs "href" = some val → up val = none →
      ParseAssets up host (.startTag .a attrs :: rest) = .error ()) ∧
    (∀ (up : String → Option URL) (ft : URL → Option (List Tok)) (link : URL)
      (toks : List Tok), ft link = some toks →
      ParseAssets up link toks = .error () →
      RequestWorkerProcess up ft link = .error ()) := by
  refine ⟨?_, ?_, ?_⟩
  · intro up host attrs key val hg hu
    simp [GetAttrURL, hg, hu]
  · intro up host attrs rest val hg hu
    simp [ParseAssets, ParseAssetsLoop, GetAttrURL, hg, hu]
  · intro up ft link toks hf hp
    simp [RequestWorkerProcess, hf, hp]

theorem GetAttrURL_panics_no_recover_witness :
    GetAttrURL (fun _ => none) c5host [("href", "bad")] "href" = .error () ∧
    ParseAssets (fun _ => none) c5host [.startTag .a [("href", "bad")]] = .error () ∧
    RequestWorkerProcess (fun _ => none)
      (fun _ => some [.startTag .a [("href", "bad")]]) c5host = .error () :=
  ⟨GetAttrURL_panics_no_recover.1 (fun _ => none) c5host [("href", "bad")]
      "href" "bad" (by decide) rfl,
    GetAttrURL_panics_no_recover.2.1 (fun _ => none) c5host [("href", "bad")]
      [] "bad" (by decide) rfl,
    GetAttrURL_panics_no_recover.2.2 (fun _ => none)
      (fun _ => some [.startTag .a [("href", "bad")]]) c5host
      [.startTag .a [("href", "bad")]] rfl
      (GetAttrURL_panics_no_recover.2.1 (fun _ => none) c5host
        [("href", "bad")] [] "bad" (by decide) rfl)⟩

/-- C10: the sitemap key is exactly the URL's path component — two
URLs differing only in query or fragment share one key, while an empty
path and the path "/" give two distinct keys. -/
theorem sitemapKey_path_only :
    (∀ (s h p q f q2 f2 : String),
      sitemapKey ⟨s, h, p, q, f⟩ = sitemapKey ⟨s, h, p, q2, f2⟩) ∧
    (∀ (s h q f s2 h2 q2 f2 : String),
      sitemapKey ⟨s, h, "", q, f⟩ ≠ sitemapKey ⟨s2, h2, "/", q2, f2⟩) := by
  constructor
  · intro s h p q f q2 f2; rfl
  · intro s h q f s2 h2 q2 f2
    simp [sitemapKey]

/-! ## The concurrent crawl system (`Crawler`, `RequestWorker`,
`IndexWorker` of crawler.go)

The crawl is modelled as a transition system whose atomic steps are
exactly the code's atomic regions: a channel receive or send, one
fetch, and one guarded critical section of `IndexWorker` (the
`Lock ... Unlock` blocks at crawler.go 186-188 and 203-210).  Workers
are anonymous: an arbitrary interleaving of steps over the shared
state covers every schedule of the ten RequestWorkers and ten
IndexWorkers (and more), so invariants proved over all executions of
this system hold for the Go program.  The ghost fields `history`
(paths pushed onto the `links` channel, seeded with the dispatcher's
initial push), `stored` (paths stored by the page-store critical
section) and `claimed` (URLs whose processing inserted their key) are
observations; no step reads them. -/

/-- The private state of an `IndexWorker` that has received a page:
about to store it, scanning its remaining links, or about to push a
newly discovered link onto the request queue. -/
inductive IndexJob where
  | store (pg : Webpage)
  | scan (pg : Webpage) (rem : List URL)
  | toSend (pg : Webpage) (l : URL) (rem : List URL)
deriving DecidableEq, Repr

/-- The page an index job is processing. -/
def jobPage : IndexJob → Webpage
  | .store pg => pg
  | .scan pg _ => pg
  | .toSend pg _ _ => pg

/-- Go map update `site.Pages[k] = v`. -/
def mapStore (m : String → Option Webpage) (k : String) (v : Webpage) :
    String → Option Webpage :=
  fun k2 => if k2 = k then some v else m k2

/-- Global state of the crawl: the sitemap (`site.Pages`), the `links`
channel contents (`reqQueue`), the `pages` channel contents
(`pageQueue`), URLs currently being fetched by some RequestWorker
(`fetching`), pages currently being indexed by some IndexWorker
(`jobs`), and the ghost histories. -/
structure CrawlState where
  pages : String → Option Webpage
  reqQueue : List URL
  pageQueue : List Webpage
  fetching : List URL
  jobs : List IndexJob
  history : List String
  stored : List String
  claimed : List URL

/-- State after `Crawler` seeds the crawl (crawler.go 54-61):
empty sitemap, the seed URL on the `links` channel. -/
def initState (seed : URL) : CrawlState :=
  { pages := fun _ => none, reqQueue := [seed], pageQueue := [],
    fetching := [], jobs := [], history := [sitemapKey seed],
    stored := [], claimed := [] }

/-- One atomic step of the crawl, parameterized by the `url.Parse`
oracle `up` and the fetch oracle `ft` (`http.Get` combined with
tokenization: `none` is a network error).  `seed` doubles as
`site.Domain`, which `Crawler` sets to the seed link. -/
inductive CrawlStep (up : String → Option URL) (ft : URL → Option (List Tok))
    (seed : URL) : CrawlState → CrawlState → Prop where
  | takeReq (s : CrawlState) (u : URL) (rest : List URL) :
      s.reqQueue = u :: rest →
      CrawlStep up ft seed s { s with
          reqQueue := rest, fetching := s.fetching ++ [u] }
  | fetchFail (s : CrawlState) (u : URL) (f₁ f₂ : List URL) :
      s.fetching = f₁ ++ u :: f₂ → ft u = none →
      CrawlStep up ft seed s { s with fetching := f₁ ++ f₂ }
  | fetchOk (s : CrawlState) (u : URL) (f₁ f₂ : List URL) (toks : List Tok)
      (ls : List URL) (as : List String) :
      s.fetching = f₁ ++ u :: f₂ → ft u = some toks →
      ParseAssets up u toks = .ok (ls, as) →
      CrawlStep up ft seed s { s with
          fetching := f₁ ++ f₂,
          pageQueue := s.pageQueue ++ [⟨u, ls, as⟩] }
  | takePage (s : CrawlState) (pg : Webpage) (rest : List Webpage) :
      s.pageQueue = pg :: rest →
      CrawlStep up ft seed s { s with
          pageQueue := rest, jobs := s.jobs ++ [.store pg] }
  | storePage (s : CrawlState) (pg : Webpage) (j₁ j₂ : List IndexJob) :
      s.jobs = j₁ ++ .store pg :: j₂ →
      CrawlStep up ft seed s { s with
          pages := mapStore s.pages (sitemapKey pg.url) pg,
          jobs := j₁ ++ .scan pg pg.links :: j₂,
          stored := s.stored ++ [sitemapKey pg.url],
          claimed := s.claimed ++ [pg.url] }
  | scanSkip (s : CrawlState) (pg : Webpage) (l : URL) (rem : List URL)
      (j₁ j₂ : List IndexJob) :
      s.jobs = j₁ ++ .scan pg (l :: rem) :: j₂ → SameHost l seed = false →
      CrawlStep up ft seed s { s with jobs := j₁ ++ .scan pg rem :: j₂ }
  | scanOld (s : CrawlState) (pg : Webpage) (l : URL) (rem : List URL)
      (j₁ j₂ : List IndexJob) (w : Webpage) :
      s.jobs = j₁ ++ .scan pg (l :: rem) :: j₂ → SameHost l seed = true →
      s.pages (sitemapKey l) = some w →
      CrawlStep up ft seed s { s with jobs := j₁ ++ .scan pg rem :: j₂ }
  | scanNew (s : CrawlState) (pg : Webpage) (l : URL) (rem : List URL)
      (j₁ j₂ : List IndexJob) :
      s.jobs = j₁ ++ .scan pg (l :: rem) :: j₂ → SameHost l seed = true →
      s.pages (sitemapKey l) = none →
      CrawlStep up ft seed s { s with
          pages := mapStore s.pages (sitemapKey l) zeroWebpage,
          jobs := j₁ ++ .toSend pg l rem :: j₂,
          claimed := s.claimed ++ [l] }
  | sendReq (s : CrawlState) (pg : Webpage) (l : URL) (rem : List URL)
      (j₁ j₂ : List IndexJob) :
      s.jobs = j₁ ++ .toSend pg l rem :: j₂ →
      CrawlStep up ft seed s { s with
          reqQueue := s.reqQueue ++ [l],
          jobs := j₁ ++ .scan pg rem :: j₂,
          history := s.history ++ [sitemapKey l] }
  | finishJob (s : CrawlState) (pg : Webpage) (j₁ j₂ : List IndexJob) :
      s.jobs = j₁ ++ .scan pg [] :: j₂ →
      CrawlStep up ft seed s { s with jobs := j₁ ++ j₂ }

/-- Reachable crawl states. -/
def CrawlReach (up : String → Option URL) (ft : URL → Option (List Tok))
    (seed : URL) (s : CrawlState) : Prop :=
  Relation.ReflTransGen (CrawlStep up ft seed) (initState seed) s

/-- A quiescent state: both channels drained and no worker holds a URL
or a page — the crawl is finished. -/
def Quiescent (s : CrawlState) : Prop :=
  s.reqQueue = [] ∧ s.pageQueue = [] ∧ s.fetching = [] ∧ s.jobs = []

/-- Paths that could still lead to a `storePage` for them: URLs on the
request queue or being fetched, pages on the page queue, and pages
held by an IndexWorker that has not stored them yet. -/
def storeJobKey : IndexJob → Option String
  | .store pg => some (sitemapKey pg.url)
  | _ => none

def storablePaths (s : CrawlState) : List String :=
  s.reqQueue.map sitemapKey ++ s.fetching.map sitemapKey ++
    s.pageQueue.map (fun pg => sitemapKey pg.url) ++
    s.jobs.filterMap storeJobKey

/-- Keys of links claimed by a placeholder whose queue push is still
pending. -/
def sendJobKey : IndexJob → Option String
  | .toSend _ l _ => some (sitemapKey l)
  | _ => none

def sendPaths (s : CrawlState) : List String := s.jobs.filterMap sendJobKey

/-! ## List and map helper lemmas -/

theorem self_mem_middle {α : Type} (a : α) (l₁ l₂ : List α) :
    a ∈ l₁ ++ a :: l₂ :=
  List.mem_append_right _ (List.mem_cons_self a l₂)

theorem mem_insert_middle {α : Type} (a : α) {x : α} {l₁ l₂ : List α}
    (h : x ∈ l₁ ++ l₂) : x ∈ l₁ ++ a :: l₂ := by
  rcases List.mem_append.mp h with h1 | h1
  · exact List.mem_append_left _ h1
  · exact List.mem_append_right _ (List.mem_cons_of_mem a h1)

theorem mem_middle_elim {α : Type} {x a : α} {l₁ l₂ : List α}
    (h : x ∈ l₁ ++ a :: l₂) : x = a ∨ x ∈ l₁ ++ l₂ := by
  rcases List.mem_append.mp h with h1 | h1
  · exact Or.inr (List.mem_append_left _ h1)
  · rcases List.mem_cons.mp h1 with h2 | h2
    · exact Or.inl h2
    · exact Or.inr (List.mem_append_right _ h2)

theorem mapStore_self (m : String → Option Webpage) (k : String) (v : Webpage) :
    mapStore m k v k = some v := by
  simp [mapStore]

theorem mapStore_other (m : String → Option Webpage) (k : String) (v : Webpage)
    (p : String) (h : p ≠ k) : mapStore m k v p = m p := by
  simp [mapStore, h]

theorem mapStore_isSome_iff (m : String → Option Webpage) (k : String)
    (v : Webpage) (p : String) :
    (mapStore m k v p).isSome ↔ p = k ∨ (m p).isSome := by
  by_cases h : p = k
  · simp [mapStore, h]
  · simp [mapStore, h]

theorem mapStore_isSome_of (m : String → Option Webpage) (k : String)
    (v : Webpage) (p : String) (h : (m p).isSome) :
    (mapStore m k v p).isSome :=
  (mapStore_isSome_iff m k v p).mpr (Or.inr h)

/-! ## Host and provenance invariants of the crawl -/

/-- A page was produced by a successful fetch and parse of its URL. -/
def PageProv (up : String → Option URL) (ft : URL → Option (List Tok))
    (pg : Webpage) : Prop :=
  ∃ toks, ft pg.url = some toks ∧
    ParseAssets up pg.url toks = Except.ok (pg.links, pg.assets)

/-- Invariants about hosts and page provenance: every URL on the
request queue, being fetched, or claiming a key has the crawl domain's
host; every page in flight was produced by fetch-and-parse of its own
URL; every stored page's links have the domain's host; every sitemap
key was claimed by some recorded same-host URL. -/
structure HostInv (up : String → Option URL) (ft : URL → Option (List Tok))
    (seed : URL) (s : CrawlState) : Prop where
  hostReq : ∀ u ∈ s.reqQueue, u.host = seed.host
  hostFetch : ∀ u ∈ s.fetching, u.host = seed.host
  hostPageQ : ∀ pg ∈ s.pageQueue, pg.url.host = seed.host
  hostJob : ∀ j ∈ s.jobs, (jobPage j).url.host = seed.host
  hostSend : ∀ j ∈ s.jobs, ∀ pg l rem, j = .toSend pg l rem → l.host = seed.host
  provPageQ : ∀ pg ∈ s.pageQueue, PageProv up ft pg
  provJob : ∀ j ∈ s.jobs, PageProv up ft (jobPage j)
  storedLinks : ∀ p w, s.pages p = some w → ∀ l ∈ w.links, l.host = seed.host
  claimedHost : ∀ u ∈ s.claimed, u.host = seed.host
  claimedKeys : ∀ p, (s.pages p).isSome ↔ ∃ u ∈ s.claimed, sitemapKey u = p

theorem HostInv_init (up : String → Option URL) (ft : URL → Option (List Tok))
    (seed : URL) : HostInv up ft seed (initState seed) := by
  refine ⟨?_, ?_, ?_, ?_, ?_, ?_, ?_, ?_, ?_, ?_⟩ <;>
    simp [initState]

theorem HostInv_step {up : String → Option URL} {ft : URL → Option (List Tok)}
    {seed : URL} {s s' : CrawlState} (hst : CrawlStep up ft seed s s')
    (hin : HostInv up ft seed s) : HostInv up ft seed s' := by
  cases hst with
  | takeReq u rest hq =>
    refine ⟨?_, ?_, hin.hostPageQ, hin.hostJob, hin.hostSend, hin.provPageQ,
      hin.provJob, hin.storedLinks, hin.claimedHost, hin.claimedKeys⟩
    · intro x hx
      exact hin.hostReq x (by rw [hq]; exact List.mem_cons_of_mem u hx)
    · intro x hx
      rcases List.mem_append.mp hx with h1 | h1
      · exact hin.hostFetch x h1
      · have hxu : x = u := by simpa using h1
        subst hxu
        exact hin.hostReq x (by rw [hq]; exact List.mem_cons_self x rest)
  | fetchFail u f₁ f₂ hf hft =>
    refine ⟨hin.hostReq, ?_, hin.hostPageQ, hin.hostJob, hin.hostSend,
      hin.provPageQ, hin.provJob, hin.storedLinks, hin.claimedHost,
      hin.claimedKeys⟩
    intro x hx
    exact hin.hostFetch x (by rw [hf]; exact mem_insert_middle u hx)
  | fetchOk u f₁ f₂ toks ls as hf hft hpa =>
    have huh : u.host = seed.host :=
      hin.hostFetch u (by rw [hf]; exact self_mem_middle u f₁ f₂)
    refine ⟨hin.hostReq, ?_, ?_, hin.hostJob, hin.hostSend, ?_,
      hin.provJob, hin.storedLinks, hin.claimedHost, hin.claimedKeys⟩
    · intro x hx
      exact hin.hostFetch x (by rw [hf]; exact mem_insert_middle u hx)
    · intro pg hpg
      rcases List.mem_append.mp hpg with h1 | h1
      · exact hin.hostPageQ pg h1
      · have : pg = ⟨u, ls, as⟩ := by simpa using h1
        subst this
        exact huh
    · intro pg hpg
      rcases List.mem_append.mp hpg with h1 | h1
      · exact hin.provPageQ pg h1
      · have : pg = ⟨u, ls, as⟩ := by simpa using h1
        subst this
        exact ⟨toks, hft, hpa⟩
  | takePage pg rest hq =>
    have hpgm : pg ∈ s.pageQueue := by rw [hq]; exact List.mem_cons_self pg rest
    refine ⟨hin.hostReq, hin.hostFetch, ?_, ?_, ?_, ?_, ?_, hin.storedLinks,
      hin.claimedHost, hin.claimedKeys⟩
    · intro x hx
      exact hin.hostPageQ x (by rw [hq]; exact List.mem_cons_of_mem pg hx)
    · intro j hj
      rcases List.mem_append.mp hj with h1 | h1
      · exact hin.hostJob j h1
      · have : j = .store pg := by simpa using h1
        subst this
        exact hin.hostPageQ pg hpgm
    · intro j hj pg' l rem heq
      rcases List.mem_append.mp hj with h1 | h1
      · exact hin.hostSend j h1 pg' l rem heq
      · have : j = .store pg := by simpa using h1
        subst this
        simp at heq
    · intro x hx
      exact hin.provPageQ x (by rw [hq]; exact List.mem_cons_of_mem pg hx)
    · intro j hj
      rcases List.mem_append.mp hj with h1 | h1
      · exact hin.provJob j h1
      · have : j = .store pg := by simpa using h1
        subst this
        exact hin.provPageQ pg hpgm
  | storePage pg j₁ j₂ hjobs =>
    have hstm : IndexJob.store pg ∈ s.jobs := by
      rw [hjobs]; exact self_mem_middle _ j₁ j₂
    have hpgh : pg.url.host = seed.host := hin.hostJob _ hstm
    have hprov : PageProv up ft pg := hin.provJob _ hstm
    refine ⟨hin.hostReq, hin.hostFetch, hin.hostPageQ, ?_, ?_, hin.provPageQ,
      ?_, ?_, ?_, ?_⟩
    · intro j hj
      rcases mem_middle_elim hj with h1 | h1
      · subst h1; exact hpgh
      · exact hin.hostJob j (by rw [hjobs]; exact mem_insert_middle _ h1)
    · intro j hj pg' l rem heq
      rcases mem_middle_elim hj with h1 | h1
      · subst h1; simp at heq
      · exact hin.hostSend j (by rw [hjobs]; exact mem_insert_middle _ h1)
          pg' l rem heq
    · intro j hj
      rcases mem_middle_elim hj with h1 | h1
      · subst h1; exact hprov
      · exact hin.provJob j (by rw [hjobs]; exact mem_insert_middle _ h1)
    · intro p w hp l hl
      replace hp : mapStore s.pages (sitemapKey pg.url) pg p = some w := hp
      by_cases hpk : p = sitemapKey pg.url
      · subst hpk
        rw [mapStore_self] at hp
        obtain ⟨toks, -, hpa⟩ := hprov
        have hw : w = pg := by simpa using hp.symm
        subst hw
        have := ParseAssets_host up w.url toks w.links w.assets hpa l hl
        rw [this, hpgh]
      · rw [mapStore_other _ _ _ _ hpk] at hp
        exact hin.storedLinks p w hp l hl
    · intro x hx
      rcases List.mem_append.mp hx with h1 | h1
      · exact hin.claimedHost x h1
      · have : x = pg.url := by simpa using h1
        subst this
        exact hpgh
    · intro p
      constructor
      · intro hp
        rcases (mapStore_isSome_iff _ _ _ _).mp hp with h1 | h1
        · exact ⟨pg.url, List.mem_append_right _ (by simp), h1.symm⟩
        · obtain ⟨x, hx, hk⟩ := (hin.claimedKeys p).mp h1
          exact ⟨x, List.mem_append_left _ hx, hk⟩
      · rintro ⟨x, hx, hk⟩
        rcases List.mem_append.mp hx with h1 | h1
        · exact mapStore_isSome_of _ _ _ _ ((hin.claimedKeys p).mpr ⟨x, h1, hk⟩)
        · have : x = pg.url := by simpa using h1
          subst this
          rw [← hk]
          simp [mapStore_self]
  | scanSkip pg l rem j₁ j₂ hjobs hsh =>
    have hscm : IndexJob.scan pg (l :: rem) ∈ s.jobs := by
      rw [hjobs]; exact self_mem_middle _ j₁ j₂
    refine ⟨hin.hostReq, hin.hostFetch, hin.hostPageQ, ?_, ?_, hin.provPageQ,
      ?_, hin.storedLinks, hin.claimedHost, hin.claimedKeys⟩
    · intro j hj
      rcases mem_middle_elim hj with h1 | h1
      · subst h1; exact hin.hostJob (IndexJob.scan pg (l :: rem)) hscm
      · exact hin.hostJob j (by rw [hjobs]; exact mem_insert_middle _ h1)
    · intro j hj pg' l' rem' heq
      rcases mem_middle_elim hj with h1 | h1
      · subst h1; simp at heq
      · exact hin.hostSend j (by rw [hjobs]; exact mem_insert_middle _ h1)
          pg' l' rem' heq
    · intro j hj
      rcases mem_middle_elim hj with h1 | h1
      · subst h1; exact hin.provJob (IndexJob.scan pg (l :: rem)) hscm
      · exact hin.provJob j (by rw [hjobs]; exact mem_insert_middle _ h1)
  | scanOld pg l rem j₁ j₂ w hjobs hsh hpl =>
    have hscm : IndexJob.scan pg (l :: rem) ∈ s.jobs := by
      rw [hjobs]; exact self_mem_middle _ j₁ j₂
    refine ⟨hin.hostReq, hin.hostFetch, hin.hostPageQ, ?_, ?_, hin.provPageQ,
      ?_, hin.storedLinks, hin.claimedHost, hin.claimedKeys⟩
    · intro j hj
      rcases mem_middle_elim hj with h1 | h1
      · subst h1; exact hin.hostJob (IndexJob.scan pg (l :: rem)) hscm
      · exact hin.hostJob j (by rw [hjobs]; exact mem_insert_middle _ h1)
    · intro j hj pg' l' rem' heq
      rcases mem_middle_elim hj with h1 | h1
      · subst h1; simp at heq
      · exact hin.hostSend j (by rw [hjobs]; exact mem_insert_middle _ h1)
          pg' l' rem' heq
    · intro j hj
      rcases mem_middle_elim hj with h1 | h1
      · subst h1; exact hin.provJob (IndexJob.scan pg (l :: rem)) hscm
      · exact hin.provJob j (by rw [hjobs]; exact mem_insert_middle _ h1)
  | scanNew pg l rem j₁ j₂ hjobs hsh hpl =>
    have hscm : IndexJob.scan pg (l :: rem) ∈ s.jobs := by
      rw [hjobs]; exact self_mem_middle _ j₁ j₂
    have hlh : l.host = seed.host := (SameHost_iff l seed).mp hsh
    refine ⟨hin.hostReq, hin.hostFetch, hin.hostPageQ, ?_, ?_, hin.provPageQ,
      ?_, ?_, ?_, ?_⟩
    · intro j hj
      rcases mem_middle_elim hj with h1 | h1
      · subst h1; exact hin.hostJob (IndexJob.scan pg (l :: rem)) hscm
      · exact hin.hostJob j (by rw [hjobs]; exact mem_insert_middle _ h1)
    · intro j hj pg' l' rem' heq
      rcases mem_middle_elim hj with h1 | h1
      · subst h1
        have h2 : l' = l := by
          have := heq; simp [IndexJob.toSend.injEq] at this
          exact this.2.1.symm
        subst h2
        exact hlh
      · exact hin.hostSend j (by rw [hjobs]; exact mem_insert_middle _ h1)
          pg' l' rem' heq
    · intro j hj
      rcases mem_middle_elim hj with h1 | h1
      · subst h1; exact hin.provJob (IndexJob.scan pg (l :: rem)) hscm
      · exact hin.provJob j (by rw [hjobs]; exact mem_insert_middle _ h1)
    · intro p w hp x hx
      replace hp : mapStore s.pages (sitemapKey l) zeroWebpage p = some w := hp
      by_cases hpk : p = sitemapKey l
      · subst hpk
        rw [mapStore_self] at hp
        have hw : w = zeroWebpage := by simpa using hp.symm
        subst hw
        simp [zeroWebpage] at hx
      · rw [mapStore_other _ _ _ _ hpk] at hp
        exact hin.storedLinks p w hp x hx
    · intro x hx
      rcases List.mem_append.mp hx with h1 | h1
      · exact hin.claimedHost x h1
      · have : x = l := by simpa using h1
        subst this
        exact hlh
    · intro p
      constructor
      · intro hp
        rcases (mapStore_isSome_iff _ _ _ _).mp hp with h1 | h1
        · exact ⟨l, List.mem_append_right _ (by simp), h1.symm⟩
        · obtain ⟨x, hx, hk⟩ := (hin.claimedKeys p).mp h1
          exact ⟨x, List.mem_append_left _ hx, hk⟩
      · rintro ⟨x, hx, hk⟩
        rcases List.mem_append.mp hx with h1 | h1
        · exact mapStore_isSome_of _ _ _ _ ((hin.claimedKeys p).mpr ⟨x, h1, hk⟩)
        · have : x = l := by simpa using h1
          subst this
          rw [← hk]
          simp [mapStore_self]
  | sendReq pg l rem j₁ j₂ hjobs =>
    have htsm : IndexJob.toSend pg l rem ∈ s.jobs := by
      rw [hjobs]; exact self_mem_middle _ j₁ j₂
    have hlh : l.host = seed.host := hin.hostSend _ htsm pg l rem rfl
    refine ⟨?_, hin.hostFetch, hin.hostPageQ, ?_, ?_, hin.provPageQ, ?_,
      hin.storedLinks, hin.claimedHost, hin.claimedKeys⟩
    · intro x hx
      rcases List.mem_append.mp hx with h1 | h1
      · exact hin.hostReq x h1
      · have : x = l := by simpa using h1
        subst this
        exact hlh
    · intro j hj
      rcases mem_middle_elim hj with h1 | h1
      · subst h1; exact hin.hostJob (IndexJob.toSend pg l rem) htsm
      · exact hin.hostJob j (by rw [hjobs]; exact mem_insert_middle _ h1)
    · intro j hj pg' l' rem' heq
      rcases mem_middle_elim hj with h1 | h1
      · subst h1; simp at heq
      · exact hin.hostSend j (by rw [hjobs]; exact mem_insert_middle _ h1)
          pg' l' rem' heq
    · intro j hj
      rcases mem_middle_elim hj with h1 | h1
      · subst h1; exact hin.provJob (IndexJob.toSend pg l rem) htsm
      · exact hin.provJob j (by rw [hjobs]; exact mem_insert_middle _ h1)
  | finishJob pg j₁ j₂ hjobs =>
    refine ⟨hin.hostReq, hin.hostFetch, hin.hostPageQ, ?_, ?_, hin.provPageQ,
      ?_, hin.storedLinks, hin.claimedHost, hin.claimedKeys⟩
    · intro j hj
      exact hin.hostJob j (by rw [hjobs]; exact mem_insert_middle _ hj)
    · intro j hj pg' l' rem' heq
      exact hin.hostSend j (by rw [hjobs]; exact mem_insert_middle _ hj)
        pg' l' rem' heq
    · intro j hj
      exact hin.provJob j (by rw [hjobs]; exact mem_insert_middle _ hj)

theorem HostInv_reach {up : String → Option URL} {ft : URL → Option (List Tok)}
    {seed : URL} {s : CrawlState} (h : CrawlReach up ft seed s) :
    HostInv up ft seed s := by
  induction h with
  | refl => exact HostInv_init up ft seed
  | tail hr hstep ih => exact HostInv_step hstep ih

/-! ## Deduplication and worklist invariants of the crawl -/

/-- Well-formedness of an index job relative to the state: a scanning
job has processed a prefix of its page's links, and every processed
same-host link already has a sitemap key; a pending queue push is for
a same-host link whose placeholder is already in the sitemap. -/
def jobOK (seed : URL) (s : CrawlState) : IndexJob → Prop
  | .store _ => True
  | .scan pg rem => ∃ pre, pg.links = pre ++ rem ∧
      ∀ x ∈ pre, SameHost x seed = true → (s.pages (sitemapKey x)).isSome
  | .toSend pg l rem => (∃ pre, pg.links = pre ++ l :: rem ∧
      ∀ x ∈ pre, SameHost x seed = true → (s.pages (sitemapKey x)).isSome) ∧
      (s.pages (sitemapKey l)).isSome ∧ SameHost l seed = true

theorem jobOK_mono {seed : URL} {s s' : CrawlState}
    (hmono : ∀ q, (s.pages q).isSome → (s'.pages q).isSome) (j : IndexJob)
    (h : jobOK seed s j) : jobOK seed s' j := by
  cases j with
  | store pg => trivial
  | scan pg rem =>
    obtain ⟨pre, h1, h2⟩ := h
    exact ⟨pre, h1, fun x hx hsh => hmono _ (h2 x hx hsh)⟩
  | toSend pg l rem =>
    obtain ⟨⟨pre, h1, h2⟩, h3, h4⟩ := h
    exact ⟨⟨pre, h1, fun x hx hsh => hmono _ (h2 x hx hsh)⟩, hmono _ h3, h4⟩

theorem sendJobKey_eq_some {j : IndexJob} {x : String}
    (h : sendJobKey j = some x) :
    ∃ pg l rem, j = .toSend pg l rem ∧ sitemapKey l = x := by
  cases j with
  | store pg => simp [sendJobKey] at h
  | scan pg rem => simp [sendJobKey] at h
  | toSend pg l rem => exact ⟨pg, l, rem, rfl, by simpa [sendJobKey] using h⟩

theorem storeJobKey_eq_some {j : IndexJob} {x : String}
    (h : storeJobKey j = some x) :
    ∃ pg, j = .store pg ∧ sitemapKey pg.url = x := by
  cases j with
  | store pg => exact ⟨pg, rfl, by simpa [storeJobKey] using h⟩
  | scan pg rem => simp [storeJobKey] at h
  | toSend pg l rem => simp [storeJobKey] at h

/-- Deduplication invariants: each path appears at most once among the
enqueue history plus the pending queue pushes; enqueued paths other
than the seed's have their placeholder; before the seed page is
stored, the system holds nothing but the seed's own obligations; and
the paths that can still be stored, plus the paths already stored, are
bounded by the enqueue history (counted with multiplicity). -/
structure MainInv (seed : URL) (s : CrawlState) : Prop where
  jobsOK : ∀ j ∈ s.jobs, jobOK seed s j
  histKeys : ∀ p ∈ s.history, p = sitemapKey seed ∨ (s.pages p).isSome
  nodup : ∀ p, (s.history ++ sendPaths s).count p ≤ 1
  preSeed : (s.pages (sitemapKey seed)).isSome ∨
    (s.history = [sitemapKey seed] ∧ (∀ u ∈ s.reqQueue, u = seed) ∧
      (∀ u ∈ s.fetching, u = seed) ∧ (∀ pg ∈ s.pageQueue, pg.url = seed) ∧
      (∀ j ∈ s.jobs, ∃ pg, j = IndexJob.store pg ∧ pg.url = seed))
  counting : ∀ p, (storablePaths s).count p + s.stored.count p ≤ s.history.count p

theorem MainInv_init (seed : URL) : MainInv seed (initState seed) := by
  refine ⟨?_, ?_, ?_, ?_, ?_⟩
  · intro j hj; simp [initState] at hj
  · intro p hp; simp [initState] at hp; exact Or.inl hp
  · intro p
    simp only [initState, sendPaths, List.filterMap_nil, List.append_nil,
      List.count_cons, List.count_nil]
    split <;> simp
  · right
    refine ⟨rfl, ?_, ?_, ?_, ?_⟩ <;> intro x hx <;> simp [initState] at hx
    exact hx
  · intro p
    simp [initState, storablePaths]

theorem MainInv_step {up : String → Option URL} {ft : URL → Option (List Tok)}
    {seed : URL} {s s' : CrawlState} (hst : CrawlStep up ft seed s s')
    (hin : MainInv seed s) : MainInv seed s' := by
  cases hst with
  | takeReq u rest hq =>
    have humem : u ∈ s.reqQueue := by rw [hq]; exact List.mem_cons_self u rest
    refine ⟨hin.jobsOK, hin.histKeys, ?_, ?_, ?_⟩
    · intro p
      have := hin.nodup p
      simpa [sendPaths] using this
    · rcases hin.preSeed with h | ⟨h1, h2, h3, h4, h5⟩
      · exact Or.inl h
      · right
        refine ⟨h1, ?_, ?_, h4, h5⟩
        · intro x hx
          exact h2 x (by rw [hq]; exact List.mem_cons_of_mem u hx)
        · intro x hx
          rcases List.mem_append.mp hx with hm | hm
          · exact h3 x hm
          · have : x = u := by simpa using hm
            subst this
            exact h2 x humem
    · intro p
      have h0 := hin.counting p
      simp only [storablePaths, hq, List.map_append, List.map_cons,
        List.map_nil, List.count_append, List.count_cons, List.count_nil] at h0 ⊢
      omega
  | fetchFail u f₁ f₂ hf hft =>
    refine ⟨hin.jobsOK, hin.histKeys, ?_, ?_, ?_⟩
    · intro p
      simpa [sendPaths] using hin.nodup p
    · rcases hin.preSeed with h | ⟨h1, h2, h3, h4, h5⟩
      · exact Or.inl h
      · right
        refine ⟨h1, h2, ?_, h4, h5⟩
        intro x hx
        exact h3 x (by rw [hf]; exact mem_insert_middle u hx)
    · intro p
      have h0 := hin.counting p
      simp only [storablePaths, hf, List.map_append, List.map_cons,
        List.map_nil, List.count_append, List.count_cons, List.count_nil] at h0 ⊢
      omega
  | fetchOk u f₁ f₂ toks ls as hf hft hpa =>
    have humem : u ∈ s.fetching := by rw [hf]; exact self_mem_middle u f₁ f₂
    refine ⟨hin.jobsOK, hin.histKeys, ?_, ?_, ?_⟩
    · intro p
      simpa [sendPaths] using hin.nodup p
    · rcases hin.preSeed with h | ⟨h1, h2, h3, h4, h5⟩
      · exact Or.inl h
      · right
        refine ⟨h1, h2, ?_, ?_, h5⟩
        · intro x hx
          exact h3 x (by rw [hf]; exact mem_insert_middle u hx)
        · intro pg hpg
          rcases List.mem_append.mp hpg with hm | hm
          · exact h4 pg hm
          · have : pg = ⟨u, ls, as⟩ := by simpa using hm
            subst this
            exact h3 u humem
    · intro p
      have h0 := hin.counting p
      simp only [storablePaths, hf, List.map_append, List.map_cons,
        List.map_nil, List.count_append, List.count_cons, List.count_nil] at h0 ⊢
      omega
  | takePage pg rest hq =>
    have hpgm : pg ∈ s.pageQueue := by rw [hq]; exact List.mem_cons_self pg rest
    refine ⟨?_, hin.histKeys, ?_, ?_, ?_⟩
    · intro j hj
      rcases List.mem_append.mp hj with hm | hm
      · exact hin.jobsOK j hm
      · have : j = .store pg := by simpa using hm
        subst this
        trivial
    · intro p
      have := hin.nodup p
      simp only [sendPaths, List.filterMap_append, List.filterMap_cons] at *
      simpa [sendJobKey] using this
    · rcases hin.preSeed with h | ⟨h1, h2, h3, h4, h5⟩
      · exact Or.inl h
      · right
        refine ⟨h1, h2, h3, ?_, ?_⟩
        · intro x hx
          exact h4 x (by rw [hq]; exact List.mem_cons_of_mem pg hx)
        · intro j hj
          rcases List.mem_append.mp hj with hm | hm
          · exact h5 j hm
          · have : j = .store pg := by simpa using hm
            subst this
            exact ⟨pg, rfl, h4 pg hpgm⟩
    · intro p
      have h0 := hin.counting p
      simp only [storablePaths, hq, List.map_append, List.map_cons,
        List.map_nil, List.count_append, List.count_cons, List.count_nil,
        List.filterMap_append, List.filterMap_cons, List.filterMap_nil, storeJobKey] at h0 ⊢
      omega
  | storePage pg j₁ j₂ hjobs =>
    have hstm : IndexJob.store pg ∈ s.jobs := by
      rw [hjobs]; exact self_mem_middle _ j₁ j₂
    have hmono : ∀ q, (s.pages q).isSome →
        ((mapStore s.pages (sitemapKey pg.url) pg) q).isSome :=
      fun q hq2 => mapStore_isSome_of _ _ _ _ hq2
    refine ⟨?_, ?_, ?_, ?_, ?_⟩
    · intro j hj
      rcases mem_middle_elim hj with hm | hm
      · subst hm
        exact ⟨[], by simp, by simp⟩
      · exact jobOK_mono hmono j
          (hin.jobsOK j (by rw [hjobs]; exact mem_insert_middle _ hm))
    · intro p hp
      rcases hin.histKeys p hp with h | h
      · exact Or.inl h
      · exact Or.inr (hmono p h)
    · intro p
      have := hin.nodup p
      simp only [sendPaths, hjobs, List.filterMap_append, List.filterMap_cons, List.filterMap_nil,
        sendJobKey] at this ⊢
      simpa using this
    · left
      rcases hin.preSeed with h | ⟨h1, h2, h3, h4, h5⟩
      · exact hmono _ h
      · obtain ⟨pg2, heq, hurl⟩ := h5 _ hstm
        have hpg2 : pg = pg2 := by
          simp [IndexJob.store.injEq] at heq
          exact heq
        have hpu : pg.url = seed := by rw [hpg2]; exact hurl
        have hx : (mapStore s.pages (sitemapKey pg.url) pg
            (sitemapKey pg.url)).isSome = true := by
          rw [mapStore_self]; rfl
        rw [← hpu]
        exact hx
    · intro p
      have h0 := hin.counting p
      simp only [storablePaths, hjobs, List.map_append, List.map_cons,
        List.map_nil, List.count_append, List.count_cons, List.count_nil,
        List.filterMap_append, List.filterMap_cons, List.filterMap_nil, storeJobKey] at h0 ⊢
      omega
  | scanSkip pg l rem j₁ j₂ hjobs hsh =>
    have hscm : IndexJob.scan pg (l :: rem) ∈ s.jobs := by
      rw [hjobs]; exact self_mem_middle _ j₁ j₂
    refine ⟨?_, hin.histKeys, ?_, ?_, ?_⟩
    · intro j hj
      rcases mem_middle_elim hj with hm | hm
      · subst hm
        obtain ⟨pre, h1, h2⟩ := hin.jobsOK _ hscm
        refine ⟨pre ++ [l], by rw [h1]; simp, ?_⟩
        intro x hx hxs
        rcases List.mem_append.mp hx with hm2 | hm2
        · exact h2 x hm2 hxs
        · have : x = l := by simpa using hm2
          subst this
          rw [hxs] at hsh
          exact absurd hsh (by simp)
      · exact hin.jobsOK j (by rw [hjobs]; exact mem_insert_middle _ hm)
    · intro p
      have := hin.nodup p
      simp only [sendPaths, hjobs, List.filterMap_append, List.filterMap_cons, List.filterMap_nil,
        sendJobKey] at this ⊢
      simpa using this
    · rcases hin.preSeed with h | ⟨h1, h2, h3, h4, h5⟩
      · exact Or.inl h
      · obtain ⟨pg2, heq, -⟩ := h5 _ hscm
        simp at heq
    · intro p
      have h0 := hin.counting p
      simp only [storablePaths, hjobs, List.map_append, List.map_cons,
        List.map_nil, List.count_append, List.count_cons, List.count_nil,
        List.filterMap_append, List.filterMap_cons, List.filterMap_nil, storeJobKey] at h0 ⊢
      omega
  | scanOld pg l rem j₁ j₂ w hjobs hsh hpl =>
    have hscm : IndexJob.scan pg (l :: rem) ∈ s.jobs := by
      rw [hjobs]; exact self_mem_middle _ j₁ j₂
    refine ⟨?_, hin.histKeys, ?_, ?_, ?_⟩
    · intro j hj
      rcases mem_middle_elim hj with hm | hm
      · subst hm
        obtain ⟨pre, h1, h2⟩ := hin.jobsOK _ hscm
        refine ⟨pre ++ [l], by rw [h1]; simp, ?_⟩
        intro x hx hxs
        rcases List.mem_append.mp hx with hm2 | hm2
        · exact h2 x hm2 hxs
        · have : x = l := by simpa using hm2
          subst this
          simp [hpl]
      · exact hin.jobsOK j (by rw [hjobs]; exact mem_insert_middle _ hm)
    · intro p
      have := hin.nodup p
      simp only [sendPaths, hjobs, List.filterMap_append, List.filterMap_cons, List.filterMap_nil,
        sendJobKey] at this ⊢
      simpa using this
    · rcases hin.preSeed with h | ⟨h1, h2, h3, h4, h5⟩
      · exact Or.inl h
      · obtain ⟨pg2, heq, -⟩ := h5 _ hscm
        simp at heq
    · intro p
      have h0 := hin.counting p
      simp only [storablePaths, hjobs, List.map_append, List.map_cons,
        List.map_nil, List.count_append, List.count_cons, List.count_nil,
        List.filterMap_append, List.filterMap_cons, List.filterMap_nil, storeJobKey] at h0 ⊢
      omega
  | scanNew pg l rem j₁ j₂ hjobs hsh hpl =>
    have hscm : IndexJob.scan pg (l :: rem) ∈ s.jobs := by
      rw [hjobs]; exact self_mem_middle _ j₁ j₂
    have hmono : ∀ q, (s.pages q).isSome →
        ((mapStore s.pages (sitemapKey l) zeroWebpage) q).isSome :=
      fun q hq2 => mapStore_isSome_of _ _ _ _ hq2
    have hnin : (s.history ++ sendPaths s).count (sitemapKey l) = 0 := by
      rw [List.count_eq_zero]
      intro hmem
      rcases List.mem_append.mp hmem with hm | hm
      · rcases hin.histKeys _ hm with h | h
        · rcases hin.preSeed with h2 | ⟨-, -, -, -, h5⟩
          · rw [h] at hpl
            rw [hpl] at h2
            simp at h2
          · obtain ⟨pg2, heq, -⟩ := h5 _ hscm
            simp at heq
        · rw [hpl] at h
          simp at h
      · obtain ⟨j, hjm, hjk⟩ := List.mem_filterMap.mp hm
        obtain ⟨pg2, l2, rem2, heq2, hk2⟩ := sendJobKey_eq_some hjk
        subst heq2
        have := (hin.jobsOK _ hjm).2.1
        rw [hk2, hpl] at this
        simp at this
    refine ⟨?_, ?_, ?_, ?_, ?_⟩
    · intro j hj
      rcases mem_middle_elim hj with hm | hm
      · subst hm
        obtain ⟨pre, h1, h2⟩ := hin.jobsOK _ hscm
        refine ⟨⟨pre, h1, fun x hx hxs => hmono _ (h2 x hx hxs)⟩, ?_, hsh⟩
        have hx : (mapStore s.pages (sitemapKey l) zeroWebpage
            (sitemapKey l)).isSome = true := by
          rw [mapStore_self]; rfl
        exact hx
      · exact jobOK_mono hmono j
          (hin.jobsOK j (by rw [hjobs]; exact mem_insert_middle _ hm))
    · intro p hp
      rcases hin.histKeys p hp with h | h
      · exact Or.inl h
      · exact Or.inr (hmono p h)
    · intro p
      have h0 := hin.nodup p
      have h1 := hnin
      by_cases hpe : p = sitemapKey l
      · subst hpe
        simp only [List.count_append] at h1 ⊢
        simp only [sendPaths, hjobs, List.filterMap_append,
          List.filterMap_cons, sendJobKey, List.count_append] at h1 ⊢
        simp only [List.count_cons]
        simp
        omega
      · simp only [sendPaths, hjobs, List.filterMap_append,
          List.filterMap_cons, sendJobKey, List.count_append,
          List.count_cons, List.count_nil] at h0 ⊢
        have hpe2 : ¬ sitemapKey l = p := fun hh => hpe hh.symm
        simp [hpe, hpe2]
        omega
    · rcases hin.preSeed with h | ⟨h1, h2, h3, h4, h5⟩
      · exact Or.inl (hmono _ h)
      · obtain ⟨pg2, heq, -⟩ := h5 _ hscm
        simp at heq
    · intro p
      have h0 := hin.counting p
      simp only [storablePaths, hjobs, List.map_append, List.map_cons,
        List.map_nil, List.count_append, List.count_cons, List.count_nil,
        List.filterMap_append, List.filterMap_cons, List.filterMap_nil, storeJobKey] at h0 ⊢
      omega
  | sendReq pg l rem j₁ j₂ hjobs =>
    have htsm : IndexJob.toSend pg l rem ∈ s.jobs := by
      rw [hjobs]; exact self_mem_middle _ j₁ j₂
    have hlsome : (s.pages (sitemapKey l)).isSome := (hin.jobsOK _ htsm).2.1
    refine ⟨?_, ?_, ?_, ?_, ?_⟩
    · intro j hj
      rcases mem_middle_elim hj with hm | hm
      · subst hm
        obtain ⟨⟨pre, h1, h2⟩, h3, h4⟩ := hin.jobsOK _ htsm
        refine ⟨pre ++ [l], by rw [h1]; simp, ?_⟩
        intro x hx hxs
        rcases List.mem_append.mp hx with hm2 | hm2
        · exact h2 x hm2 hxs
        · have : x = l := by simpa using hm2
          subst this
          exact h3
      · exact hin.jobsOK j (by rw [hjobs]; exact mem_insert_middle _ hm)
    · intro p hp
      rcases List.mem_append.mp hp with hm | hm
      · exact hin.histKeys p hm
      · have : p = sitemapKey l := by simpa using hm
        subst this
        exact Or.inr hlsome
    · intro p
      have h0 := hin.nodup p
      simp only [sendPaths, hjobs, List.filterMap_append, List.filterMap_cons,
        sendJobKey, List.count_append, List.count_cons, List.count_nil] at h0 ⊢
      omega
    · rcases hin.preSeed with h | ⟨h1, h2, h3, h4, h5⟩
      · exact Or.inl h
      · obtain ⟨pg2, heq, -⟩ := h5 _ htsm
        simp at heq
    · intro p
      have h0 := hin.counting p
      simp only [storablePaths, hjobs, List.map_append, List.map_cons,
        List.map_nil, List.count_append, List.count_cons, List.count_nil,
        List.filterMap_append, List.filterMap_cons, List.filterMap_nil, storeJobKey] at h0 ⊢
      omega
  | finishJob pg j₁ j₂ hjobs =>
    refine ⟨?_, hin.histKeys, ?_, ?_, ?_⟩
    · intro j hj
      exact hin.jobsOK j (by rw [hjobs]; exact mem_insert_middle _ hj)
    · intro p
      have := hin.nodup p
      simp only [sendPaths, hjobs, List.filterMap_append, List.filterMap_cons,
        sendJobKey, List.count_append] at this ⊢
      omega
    · rcases hin.preSeed with h | ⟨h1, h2, h3, h4, h5⟩
      · exact Or.inl h
      · right
        refine ⟨h1, h2, h3, h4, ?_⟩
        intro j hj
        exact h5 j (by rw [hjobs]; exact mem_insert_middle _ hj)
    · intro p
      have h0 := hin.counting p
      simp only [storablePaths, hjobs, List.map_append, List.map_cons,
        List.map_nil, List.count_append, List.count_cons, List.count_nil,
        List.filterMap_append, List.filterMap_cons, List.filterMap_nil, storeJobKey] at h0 ⊢
      omega

theorem MainInv_reach {up : String → Option URL} {ft : URL → Option (List Tok)}
    {seed : URL} {s : CrawlState} (h : CrawlReach up ft seed s) :
    MainInv seed s := by
  induction h with
  | refl => exact MainInv_init seed
  | tail hr hstep ih => exact MainInv_step hstep ih

/-! ## Reachable paths and soundness of the sitemap keys -/

/-- Canonical same-host URL for a path (pages are identified by their
path; which URL variant fetches a page does not change its links when
the fetch oracle depends only on host and path). -/
def repURL (seed : URL) (p : String) : URL :=
  ⟨"http", seed.host, p, "", ""⟩

/-- The same-host links of the page at path `p`, as the crawl observes
them: fetch the canonical URL and parse. -/
def fetchedLinks (up : String → Option URL) (ft : URL → Option (List Tok))
    (seed : URL) (p : String) : List URL :=
  match ft (repURL seed p) with
  | none => []
  | some toks =>
    match ParseAssets up (repURL seed p) toks with
    | .error _ => []
    | .ok (ls, _) => ls

/-- Paths reachable from the seed by following same-host links. -/
inductive ReachablePath (up : String → Option URL)
    (ft : URL → Option (List Tok)) (seed : URL) : String → Prop where
  | seed : ReachablePath up ft seed (sitemapKey seed)
  | step (p : String) (l : URL) : ReachablePath up ft seed p →
      l ∈ fetchedLinks up ft seed p → SameHost l seed = true →
      ReachablePath up ft seed (sitemapKey l)

/-- When the fetch oracle depends only on host and path, a fetched
page's links agree with the canonical links of its path. -/
theorem fetchedLinks_of_prov {up : String → Option URL}
    {ft : URL → Option (List Tok)} {seed : URL}
    (hpath : ∀ u v : URL, u.host = seed.host → v.host = seed.host →
      u.path = v.path → ft u = ft v)
    (pg : Webpage) (hh : pg.url.host = seed.host) (hp : PageProv up ft pg) :
    fetchedLinks up ft seed (sitemapKey pg.url) = pg.links := by
  obtain ⟨toks, h1, h2⟩ := hp
  have hr : (repURL seed (sitemapKey pg.url)).host = seed.host := rfl
  have hft : ft (repURL seed (sitemapKey pg.url)) = ft pg.url :=
    hpath _ _ hr hh rfl
  have hcongr := ParseAssets_host_congr up (repURL seed (sitemapKey pg.url))
    pg.url (by rw [hr, hh]) toks
  rw [fetchedLinks, hft, h1]
  show (match ParseAssets up (repURL seed (sitemapKey pg.url)) toks with
    | .error _ => ([] : List URL)
    | .ok (ls, _) => ls) = pg.links
  rw [hcongr, h2]

/-- Soundness: everything in the system concerns reachable paths. -/
structure SoundInv (up : String → Option URL) (ft : URL → Option (List Tok))
    (seed : URL) (s : CrawlState) : Prop where
  sKeys : ∀ p, (s.pages p).isSome → ReachablePath up ft seed p
  sReq : ∀ u ∈ s.reqQueue, ReachablePath up ft seed (sitemapKey u)
  sFetch : ∀ u ∈ s.fetching, ReachablePath up ft seed (sitemapKey u)
  sPage : ∀ pg ∈ s.pageQueue, ReachablePath up ft seed (sitemapKey pg.url)
  sJob : ∀ j ∈ s.jobs, ReachablePath up ft seed (sitemapKey (jobPage j).url)

theorem SoundInv_step {up : String → Option URL} {ft : URL → Option (List Tok)}
    {seed : URL} {s s' : CrawlState}
    (hpath : ∀ u v : URL, u.host = seed.host → v.host = seed.host →
      u.path = v.path → ft u = ft v)
    (hhost : HostInv up ft seed s) (hmain : MainInv seed s)
    (hst : CrawlStep up ft seed s s') (hin : SoundInv up ft seed s) :
    SoundInv up ft seed s' := by
  cases hst with
  | takeReq u rest hq =>
    refine ⟨hin.sKeys, ?_, ?_, hin.sPage, hin.sJob⟩
    · intro x hx
      exact hin.sReq x (by rw [hq]; exact List.mem_cons_of_mem u hx)
    · intro x hx
      rcases List.mem_append.mp hx with hm | hm
      · exact hin.sFetch x hm
      · have : x = u := by simpa using hm
        subst this
        exact hin.sReq x (by rw [hq]; exact List.mem_cons_self x rest)
  | fetchFail u f₁ f₂ hf hft =>
    refine ⟨hin.sKeys, hin.sReq, ?_, hin.sPage, hin.sJob⟩
    intro x hx
    exact hin.sFetch x (by rw [hf]; exact mem_insert_middle u hx)
  | fetchOk u f₁ f₂ toks ls as hf hft hpa =>
    refine ⟨hin.sKeys, hin.sReq, ?_, ?_, hin.sJob⟩
    · intro x hx
      exact hin.sFetch x (by rw [hf]; exact mem_insert_middle u hx)
    · intro pg hpg
      rcases List.mem_append.mp hpg with hm | hm
      · exact hin.sPage pg hm
      · have : pg = ⟨u, ls, as⟩ := by simpa using hm
        subst this
        exact hin.sFetch u (by rw [hf]; exact self_mem_middle u f₁ f₂)
  | takePage pg rest hq =>
    refine ⟨hin.sKeys, hin.sReq, hin.sFetch, ?_, ?_⟩
    · intro x hx
      exact hin.sPage x (by rw [hq]; exact List.mem_cons_of_mem pg hx)
    · intro j hj
      rcases List.mem_append.mp hj with hm | hm
      · exact hin.sJob j hm
      · have : j = .store pg := by simpa using hm
        subst this
        exact hin.sPage pg (by rw [hq]; exact List.mem_cons_self pg rest)
  | storePage pg j₁ j₂ hjobs =>
    have hstm : IndexJob.store pg ∈ s.jobs := by
      rw [hjobs]; exact self_mem_middle _ j₁ j₂
    refine ⟨?_, hin.sReq, hin.sFetch, hin.sPage, ?_⟩
    · intro p hp
      replace hp : (mapStore s.pages (sitemapKey pg.url) pg p).isSome = true := hp
      rcases (mapStore_isSome_iff _ _ _ _).mp hp with h1 | h1
      · subst h1
        exact hin.sJob _ hstm
      · exact hin.sKeys p h1
    · intro j hj
      rcases mem_middle_elim hj with hm | hm
      · subst hm
        exact hin.sJob (IndexJob.store pg) hstm
      · exact hin.sJob j (by rw [hjobs]; exact mem_insert_middle _ hm)
  | scanSkip pg l rem j₁ j₂ hjobs hsh =>
    have hscm : IndexJob.scan pg (l :: rem) ∈ s.jobs := by
      rw [hjobs]; exact self_mem_middle _ j₁ j₂
    refine ⟨hin.sKeys, hin.sReq, hin.sFetch, hin.sPage, ?_⟩
    intro j hj
    rcases mem_middle_elim hj with hm | hm
    · subst hm
      exact hin.sJob (IndexJob.scan pg (l :: rem)) hscm
    · exact hin.sJob j (by rw [hjobs]; exact mem_insert_middle _ hm)
  | scanOld pg l rem j₁ j₂ w hjobs hsh hpl =>
    have hscm : IndexJob.scan pg (l :: rem) ∈ s.jobs := by
      rw [hjobs]; exact self_mem_middle _ j₁ j₂
    refine ⟨hin.sKeys, hin.sReq, hin.sFetch, hin.sPage, ?_⟩
    intro j hj
    rcases mem_middle_elim hj with hm | hm
    · subst hm
      exact hin.sJob (IndexJob.scan pg (l :: rem)) hscm
    · exact hin.sJob j (by rw [hjobs]; exact mem_insert_middle _ hm)
  | scanNew pg l rem j₁ j₂ hjobs hsh hpl =>
    have hscm : IndexJob.scan pg (l :: rem) ∈ s.jobs := by
      rw [hjobs]; exact self_mem_middle _ j₁ j₂
    have hlr : ReachablePath up ft seed (sitemapKey l) := by
      have hpp : ReachablePath up ft seed (sitemapKey pg.url) := hin.sJob _ hscm
      have hfl : fetchedLinks up ft seed (sitemapKey pg.url) = pg.links :=
        fetchedLinks_of_prov hpath pg (hhost.hostJob _ hscm)
          (hhost.provJob _ hscm)
      obtain ⟨pre, h1, -⟩ := hmain.jobsOK _ hscm
      have hlm : l ∈ pg.links := by
        rw [h1]; exact self_mem_middle l pre rem
      exact ReachablePath.step _ l hpp (by rw [hfl]; exact hlm) hsh
    refine ⟨?_, hin.sReq, hin.sFetch, hin.sPage, ?_⟩
    · intro p hp
      replace hp : (mapStore s.pages (sitemapKey l) zeroWebpage p).isSome = true := hp
      rcases (mapStore_isSome_iff _ _ _ _).mp hp with h1 | h1
      · subst h1; exact hlr
      · exact hin.sKeys p h1
    · intro j hj
      rcases mem_middle_elim hj with hm | hm
      · subst hm
        exact hin.sJob (IndexJob.scan pg (l :: rem)) hscm
      · exact hin.sJob j (by rw [hjobs]; exact mem_insert_middle _ hm)
  | sendReq pg l rem j₁ j₂ hjobs =>
    have htsm : IndexJob.toSend pg l rem ∈ s.jobs := by
      rw [hjobs]; exact self_mem_middle _ j₁ j₂
    have hlsome : (s.pages (sitemapKey l)).isSome := (hmain.jobsOK _ htsm).2.1
    refine ⟨hin.sKeys, ?_, hin.sFetch, hin.sPage, ?_⟩
    · intro x hx
      rcases List.mem_append.mp hx with hm | hm
      · exact hin.sReq x hm
      · have : x = l := by simpa using hm
        subst this
        exact hin.sKeys _ hlsome
    · intro j hj
      rcases mem_middle_elim hj with hm | hm
      · subst hm
        exact hin.sJob (IndexJob.toSend pg l rem) htsm
      · exact hin.sJob j (by rw [hjobs]; exact mem_insert_middle _ hm)
  | finishJob pg j₁ j₂ hjobs =>
    refine ⟨hin.sKeys, hin.sReq, hin.sFetch, hin.sPage, ?_⟩
    intro j hj
    exact hin.sJob j (by rw [hjobs]; exact mem_insert_middle _ hj)

theorem SoundInv_reach {up : String → Option URL} {ft : URL → Option (List Tok)}
    {seed : URL} {s : CrawlState}
    (hpath : ∀ u v : URL, u.host = seed.host → v.host = seed.host →
      u.path = v.path → ft u = ft v)
    (h : CrawlReach up ft seed s) : SoundInv up ft seed s := by
  induction h with
  | refl =>
    refine ⟨?_, ?_, ?_, ?_, ?_⟩
    · intro p hp; simp [initState] at hp
    · intro u hu
      have : u = seed := by simpa [initState] using hu
      subst this
      exact ReachablePath.seed
    · intro u hu; simp [initState] at hu
    · intro pg hpg; simp [initState] at hpg
    · intro j hj; simp [initState] at hj
  | tail hr hstep ih =>
    exact SoundInv_step hpath (HostInv_reach hr) (MainInv_reach hr) hstep ih

/-! ## Completeness: pending obligations cover unexplored keys -/

/-- The path `p` still has a pending obligation somewhere in the
system: a queued or in-flight URL with that path, a page with that
path waiting to be indexed or being indexed, or a pending queue push
for it. -/
def Pending (s : CrawlState) (p : String) : Prop :=
  (∃ u ∈ s.reqQueue, sitemapKey u = p) ∨
  (∃ u ∈ s.fetching, sitemapKey u = p) ∨
  (∃ pg ∈ s.pageQueue, sitemapKey pg.url = p) ∨
  (∃ j ∈ s.jobs, sitemapKey (jobPage j).url = p) ∨
  (∃ j ∈ s.jobs, sendJobKey j = some p)

/-- Completeness invariant: the seed is stored or pending, and every
key's same-host links are either all claimed or the key's page still
has a pending obligation. -/
structure CompInv (up : String → Option URL) (ft : URL → Option (List Tok))
    (seed : URL) (s : CrawlState) : Prop where
  cSeed : (s.pages (sitemapKey seed)).isSome ∨ seed ∈ s.reqQueue ∨
    seed ∈ s.fetching ∨ (∃ pg ∈ s.pageQueue, pg.url = seed) ∨
    (∃ pg, IndexJob.store pg ∈ s.jobs ∧ pg.url = seed)
  cClosure : ∀ p, (s.pages p).isSome →
    (∀ l ∈ fetchedLinks up ft seed p, SameHost l seed = true →
      (s.pages (sitemapKey l)).isSome) ∨ Pending s p

theorem CompInv_step {up : String → Option URL} {ft : URL → Option (List Tok)}
    {seed : URL} {s s' : CrawlState}
    (hpath : ∀ u v : URL, u.host = seed.host → v.host = seed.host →
      u.path = v.path → ft u = ft v)
    (htotal : ∀ u : URL, u.host = seed.host → ft u ≠ none)
    (hhost : HostInv up ft seed s) (hmain : MainInv seed s)
    (hst : CrawlStep up ft seed s s') (hin : CompInv up ft seed s) :
    CompInv up ft seed s' := by
  cases hst with
  | takeReq u rest hq =>
    have hP : ∀ p, Pending s p → Pending
        { s with reqQueue := rest, fetching := s.fetching ++ [u] } p := by
      intro p hp
      rcases hp with ⟨x, hx, hk⟩ | ⟨x, hx, hk⟩ | ⟨x, hx, hk⟩ |
        ⟨j, hj, hk⟩ | ⟨j, hj, hk⟩
      · rw [hq] at hx
        rcases List.mem_cons.mp hx with hm | hm
        · subst hm
          exact Or.inr (Or.inl ⟨x, List.mem_append_right _ (by simp), hk⟩)
        · exact Or.inl ⟨x, hm, hk⟩
      · exact Or.inr (Or.inl ⟨x, List.mem_append_left _ hx, hk⟩)
      · exact Or.inr (Or.inr (Or.inl ⟨x, hx, hk⟩))
      · exact Or.inr (Or.inr (Or.inr (Or.inl ⟨j, hj, hk⟩)))
      · exact Or.inr (Or.inr (Or.inr (Or.inr ⟨j, hj, hk⟩)))
    refine ⟨?_, ?_⟩
    · rcases hin.cSeed with h | h | h | h | h
      · exact Or.inl h
      · rw [hq] at h
        rcases List.mem_cons.mp h with hm | hm
        · exact Or.inr (Or.inr (Or.inl (by
            rw [← hm] at *
            exact List.mem_append_right _ (by simp))))
        · exact Or.inr (Or.inl hm)
      · exact Or.inr (Or.inr (Or.inl (List.mem_append_left _ h)))
      · exact Or.inr (Or.inr (Or.inr (Or.inl h)))
      · exact Or.inr (Or.inr (Or.inr (Or.inr h)))
    · intro p hp
      rcases hin.cClosure p hp with h | h
      · exact Or.inl h
      · exact Or.inr (hP p h)
  | fetchFail u f₁ f₂ hf hft =>
    exact absurd hft (htotal u
      (hhost.hostFetch u (by rw [hf]; exact self_mem_middle u f₁ f₂)))
  | fetchOk u f₁ f₂ toks ls as hf hft hpa =>
    have hP : ∀ p, Pending s p → Pending { s with
        fetching := f₁ ++ f₂,
        pageQueue := s.pageQueue ++ [⟨u, ls, as⟩] } p := by
      intro p hp
      rcases hp with ⟨x, hx, hk⟩ | ⟨x, hx, hk⟩ | ⟨x, hx, hk⟩ |
        ⟨j, hj, hk⟩ | ⟨j, hj, hk⟩
      · exact Or.inl ⟨x, hx, hk⟩
      · rw [hf] at hx
        rcases mem_middle_elim hx with hm | hm
        · subst hm
          exact Or.inr (Or.inr (Or.inl ⟨⟨x, ls, as⟩,
            List.mem_append_right _ (by simp), hk⟩))
        · exact Or.inr (Or.inl ⟨x, hm, hk⟩)
      · exact Or.inr (Or.inr (Or.inl ⟨x, List.mem_append_left _ hx, hk⟩))
      · exact Or.inr (Or.inr (Or.inr (Or.inl ⟨j, hj, hk⟩)))
      · exact Or.inr (Or.inr (Or.inr (Or.inr ⟨j, hj, hk⟩)))
    refine ⟨?_, ?_⟩
    · rcases hin.cSeed with h | h | h | h | h
      · exact Or.inl h
      · exact Or.inr (Or.inl h)
      · rw [hf] at h
        rcases mem_middle_elim h with hm | hm
        · exact Or.inr (Or.inr (Or.inr (Or.inl ⟨⟨u, ls, as⟩,
            List.mem_append_right _ (by simp), by rw [hm]⟩)))
        · exact Or.inr (Or.inr (Or.inl hm))
      · obtain ⟨pg2, hm, hurl⟩ := h
        exact Or.inr (Or.inr (Or.inr (Or.inl ⟨pg2,
          List.mem_append_left _ hm, hurl⟩)))
      · exact Or.inr (Or.inr (Or.inr (Or.inr h)))
    · intro p hp
      rcases hin.cClosure p hp with h | h
      · exact Or.inl h
      · exact Or.inr (hP p h)
  | takePage pg rest hq =>
    have hP : ∀ p, Pending s p → Pending
        { s with pageQueue := rest, jobs := s.jobs ++ [.store pg] } p := by
      intro p hp
      rcases hp with ⟨x, hx, hk⟩ | ⟨x, hx, hk⟩ | ⟨x, hx, hk⟩ |
        ⟨j, hj, hk⟩ | ⟨j, hj, hk⟩
      · exact Or.inl ⟨x, hx, hk⟩
      · exact Or.inr (Or.inl ⟨x, hx, hk⟩)
      · rw [hq] at hx
        rcases List.mem_cons.mp hx with hm | hm
        · subst hm
          exact Or.inr (Or.inr (Or.inr (Or.inl ⟨.store x,
            List.mem_append_right _ (by simp), hk⟩)))
        · exact Or.inr (Or.inr (Or.inl ⟨x, hm, hk⟩))
      · exact Or.inr (Or.inr (Or.inr (Or.inl ⟨j, List.mem_append_left _ hj, hk⟩)))
      · exact Or.inr (Or.inr (Or.inr (Or.inr ⟨j, List.mem_append_left _ hj, hk⟩)))
    refine ⟨?_, ?_⟩
    · rcases hin.cSeed with h | h | h | h | h
      · exact Or.inl h
      · exact Or.inr (Or.inl h)
      · exact Or.inr (Or.inr (Or.inl h))
      · obtain ⟨pg2, hm, hurl⟩ := h
        rw [hq] at hm
        rcases List.mem_cons.mp hm with hm2 | hm2
        · subst hm2
          exact Or.inr (Or.inr (Or.inr (Or.inr ⟨pg2,
            List.mem_append_right _ (by simp), hurl⟩)))
        · exact Or.inr (Or.inr (Or.inr (Or.inl ⟨pg2, hm2, hurl⟩)))
      · obtain ⟨pg2, hm, hurl⟩ := h
        exact Or.inr (Or.inr (Or.inr (Or.inr ⟨pg2,
          List.mem_append_left _ hm, hurl⟩)))
    · intro p hp
      rcases hin.cClosure p hp with h | h
      · exact Or.inl h
      · exact Or.inr (hP p h)
  | storePage pg j₁ j₂ hjobs =>
    have hmono : ∀ q, (s.pages q).isSome →
        ((mapStore s.pages (sitemapKey pg.url) pg) q).isSome :=
      fun q hq2 => mapStore_isSome_of _ _ _ _ hq2
    have hscannew : IndexJob.scan pg pg.links ∈
        j₁ ++ IndexJob.scan pg pg.links :: j₂ := self_mem_middle _ j₁ j₂
    have hP : ∀ p, Pending s p → Pending { s with
        pages := mapStore s.pages (sitemapKey pg.url) pg,
        jobs := j₁ ++ IndexJob.scan pg pg.links :: j₂,
        stored := s.stored ++ [sitemapKey pg.url],
        claimed := s.claimed ++ [pg.url] } p := by
      intro p hp
      rcases hp with ⟨x, hx, hk⟩ | ⟨x, hx, hk⟩ | ⟨x, hx, hk⟩ |
        ⟨j, hj, hk⟩ | ⟨j, hj, hk⟩
      · exact Or.inl ⟨x, hx, hk⟩
      · exact Or.inr (Or.inl ⟨x, hx, hk⟩)
      · exact Or.inr (Or.inr (Or.inl ⟨x, hx, hk⟩))
      · rw [hjobs] at hj
        rcases mem_middle_elim hj with hm | hm
        · subst hm
          exact Or.inr (Or.inr (Or.inr (Or.inl
            ⟨IndexJob.scan pg pg.links, hscannew, hk⟩)))
        · exact Or.inr (Or.inr (Or.inr (Or.inl ⟨j, mem_insert_middle _ hm, hk⟩)))
      · rw [hjobs] at hj
        rcases mem_middle_elim hj with hm | hm
        · subst hm; simp [sendJobKey] at hk
        · exact Or.inr (Or.inr (Or.inr (Or.inr ⟨j, mem_insert_middle _ hm, hk⟩)))
    refine ⟨?_, ?_⟩
    · rcases hin.cSeed with h | h | h | h | h
      · exact Or.inl (hmono _ h)
      · exact Or.inr (Or.inl h)
      · exact Or.inr (Or.inr (Or.inl h))
      · exact Or.inr (Or.inr (Or.inr (Or.inl h)))
      · obtain ⟨pg2, hm, hurl⟩ := h
        rw [hjobs] at hm
        rcases mem_middle_elim hm with hm2 | hm2
        · have hpg2 : pg2 = pg := by
            simp [IndexJob.store.injEq] at hm2
            exact hm2
          subst hpg2
          left
          have hx : (mapStore s.pages (sitemapKey pg2.url) pg2
              (sitemapKey pg2.url)).isSome = true := by
            rw [mapStore_self]; rfl
          rw [← hurl]
          exact hx
        · exact Or.inr (Or.inr (Or.inr (Or.inr ⟨pg2, mem_insert_middle _ hm2, hurl⟩)))
    · intro p hp
      replace hp : (mapStore s.pages (sitemapKey pg.url) pg p).isSome = true := hp
      rcases (mapStore_isSome_iff _ _ _ _).mp hp with h1 | h1
      · subst h1
        exact Or.inr (Or.inr (Or.inr (Or.inr (Or.inl
          ⟨IndexJob.scan pg pg.links, hscannew, rfl⟩))))
      · rcases hin.cClosure p h1 with h | h
        · exact Or.inl (fun l hl hsh => hmono _ (h l hl hsh))
        · exact Or.inr (hP p h)
  | scanSkip pg l rem j₁ j₂ hjobs hsh =>
    have hscannew : IndexJob.scan pg rem ∈
        j₁ ++ IndexJob.scan pg rem :: j₂ := self_mem_middle _ j₁ j₂
    have hP : ∀ p, Pending s p → Pending
        { s with jobs := j₁ ++ IndexJob.scan pg rem :: j₂ } p := by
      intro p hp
      rcases hp with ⟨x, hx, hk⟩ | ⟨x, hx, hk⟩ | ⟨x, hx, hk⟩ |
        ⟨j, hj, hk⟩ | ⟨j, hj, hk⟩
      · exact Or.inl ⟨x, hx, hk⟩
      · exact Or.inr (Or.inl ⟨x, hx, hk⟩)
      · exact Or.inr (Or.inr (Or.inl ⟨x, hx, hk⟩))
      · rw [hjobs] at hj
        rcases mem_middle_elim hj with hm | hm
        · subst hm
          exact Or.inr (Or.inr (Or.inr (Or.inl ⟨IndexJob.scan pg rem, hscannew, hk⟩)))
        · exact Or.inr (Or.inr (Or.inr (Or.inl ⟨j, mem_insert_middle _ hm, hk⟩)))
      · rw [hjobs] at hj
        rcases mem_middle_elim hj with hm | hm
        · subst hm; simp [sendJobKey] at hk
        · exact Or.inr (Or.inr (Or.inr (Or.inr ⟨j, mem_insert_middle _ hm, hk⟩)))
    refine ⟨?_, ?_⟩
    · rcases hin.cSeed with h | h | h | h | h
      · exact Or.inl h
      · exact Or.inr (Or.inl h)
      · exact Or.inr (Or.inr (Or.inl h))
      · exact Or.inr (Or.inr (Or.inr (Or.inl h)))
      · obtain ⟨pg2, hm, hurl⟩ := h
        rw [hjobs] at hm
        rcases mem_middle_elim hm with hm2 | hm2
        · simp at hm2
        · exact Or.inr (Or.inr (Or.inr (Or.inr ⟨pg2, mem_insert_middle _ hm2, hurl⟩)))
    · intro p hp
      rcases hin.cClosure p hp with h | h
      · exact Or.inl h
      · exact Or.inr (hP p h)
  | scanOld pg l rem j₁ j₂ w hjobs hsh hpl =>
    have hscannew : IndexJob.scan pg rem ∈
        j₁ ++ IndexJob.scan pg rem :: j₂ := self_mem_middle _ j₁ j₂
    have hP : ∀ p, Pending s p → Pending
        { s with jobs := j₁ ++ IndexJob.scan pg rem :: j₂ } p := by
      intro p hp
      rcases hp with ⟨x, hx, hk⟩ | ⟨x, hx, hk⟩ | ⟨x, hx, hk⟩ |
        ⟨j, hj, hk⟩ | ⟨j, hj, hk⟩
      · exact Or.inl ⟨x, hx, hk⟩
      · exact Or.inr (Or.inl ⟨x, hx, hk⟩)
      · exact Or.inr (Or.inr (Or.inl ⟨x, hx, hk⟩))
      · rw [hjobs] at hj
        rcases mem_middle_elim hj with hm | hm
        · subst hm
          exact Or.inr (Or.inr (Or.inr (Or.inl ⟨IndexJob.scan pg rem, hscannew, hk⟩)))
        · exact Or.inr (Or.inr (Or.inr (Or.inl ⟨j, mem_insert_middle _ hm, hk⟩)))
      · rw [hjobs] at hj
        rcases mem_middle_elim hj with hm | hm
        · subst hm; simp [sendJobKey] at hk
        · exact Or.inr (Or.inr (Or.inr (Or.inr ⟨j, mem_insert_middle _ hm, hk⟩)))
    refine ⟨?_, ?_⟩
    · rcases hin.cSeed with h | h | h | h | h
      · exact Or.inl h
      · exact Or.inr (Or.inl h)
      · exact Or.inr (Or.inr (Or.inl h))
      · exact Or.inr (Or.inr (Or.inr (Or.inl h)))
      · obtain ⟨pg2, hm, hurl⟩ := h
        rw [hjobs] at hm
        rcases mem_middle_elim hm with hm2 | hm2
        · simp at hm2
        · exact Or.inr (Or.inr (Or.inr (Or.inr ⟨pg2, mem_insert_middle _ hm2, hurl⟩)))
    · intro p hp
      rcases hin.cClosure p hp with h | h
      · exact Or.inl h
      · exact Or.inr (hP p h)
  | scanNew pg l rem j₁ j₂ hjobs hsh hpl =>
    have hmono : ∀ q, (s.pages q).isSome →
        ((mapStore s.pages (sitemapKey l) zeroWebpage) q).isSome :=
      fun q hq2 => mapStore_isSome_of _ _ _ _ hq2
    have hsendnew : IndexJob.toSend pg l rem ∈
        j₁ ++ IndexJob.toSend pg l rem :: j₂ := self_mem_middle _ j₁ j₂
    have hP : ∀ p, Pending s p → Pending { s with
        pages := mapStore s.pages (sitemapKey l) zeroWebpage,
        jobs := j₁ ++ IndexJob.toSend pg l rem :: j₂,
        claimed := s.claimed ++ [l] } p := by
      intro p hp
      rcases hp with ⟨x, hx, hk⟩ | ⟨x, hx, hk⟩ | ⟨x, hx, hk⟩ |
        ⟨j, hj, hk⟩ | ⟨j, hj, hk⟩
      · exact Or.inl ⟨x, hx, hk⟩
      · exact Or.inr (Or.inl ⟨x, hx, hk⟩)
      · exact Or.inr (Or.inr (Or.inl ⟨x, hx, hk⟩))
      · rw [hjobs] at hj
        rcases mem_middle_elim hj with hm | hm
        · subst hm
          exact Or.inr (Or.inr (Or.inr (Or.inl
            ⟨IndexJob.toSend pg l rem, hsendnew, hk⟩)))
        · exact Or.inr (Or.inr (Or.inr (Or.inl ⟨j, mem_insert_middle _ hm, hk⟩)))
      · rw [hjobs] at hj
        rcases mem_middle_elim hj with hm | hm
        · subst hm; simp [sendJobKey] at hk
        · exact Or.inr (Or.inr (Or.inr (Or.inr ⟨j, mem_insert_middle _ hm, hk⟩)))
    refine ⟨?_, ?_⟩
    · rcases hin.cSeed with h | h | h | h | h
      · exact Or.inl (hmono _ h)
      · exact Or.inr (Or.inl h)
      · exact Or.inr (Or.inr (Or.inl h))
      · exact Or.inr (Or.inr (Or.inr (Or.inl h)))
      · obtain ⟨pg2, hm, hurl⟩ := h
        rw [hjobs] at hm
        rcases mem_middle_elim hm with hm2 | hm2
        · simp at hm2
        · exact Or.inr (Or.inr (Or.inr (Or.inr ⟨pg2, mem_insert_middle _ hm2, hurl⟩)))
    · intro p hp
      replace hp : (mapStore s.pages (sitemapKey l) zeroWebpage p).isSome = true := hp
      rcases (mapStore_isSome_iff _ _ _ _).mp hp with h1 | h1
      · subst h1
        exact Or.inr (Or.inr (Or.inr (Or.inr (Or.inr
          ⟨IndexJob.toSend pg l rem, hsendnew, rfl⟩))))
      · rcases hin.cClosure p h1 with h | h
        · exact Or.inl (fun x hx hxs => hmono _ (h x hx hxs))
        · exact Or.inr (hP p h)
  | sendReq pg l rem j₁ j₂ hjobs =>
    have hscannew : IndexJob.scan pg rem ∈
        j₁ ++ IndexJob.scan pg rem :: j₂ := self_mem_middle _ j₁ j₂
    have hP : ∀ p, Pending s p → Pending { s with
        reqQueue := s.reqQueue ++ [l],
        jobs := j₁ ++ IndexJob.scan pg rem :: j₂,
        history := s.history ++ [sitemapKey l] } p := by
      intro p hp
      rcases hp with ⟨x, hx, hk⟩ | ⟨x, hx, hk⟩ | ⟨x, hx, hk⟩ |
        ⟨j, hj, hk⟩ | ⟨j, hj, hk⟩
      · exact Or.inl ⟨x, List.mem_append_left _ hx, hk⟩
      · exact Or.inr (Or.inl ⟨x, hx, hk⟩)
      · exact Or.inr (Or.inr (Or.inl ⟨x, hx, hk⟩))
      · rw [hjobs] at hj
        rcases mem_middle_elim hj with hm | hm
        · subst hm
          exact Or.inr (Or.inr (Or.inr (Or.inl ⟨IndexJob.scan pg rem, hscannew, hk⟩)))
        · exact Or.inr (Or.inr (Or.inr (Or.inl ⟨j, mem_insert_middle _ hm, hk⟩)))
      · rw [hjobs] at hj
        rcases mem_middle_elim hj with hm | hm
        · subst hm
          have hkl : p = sitemapKey l := by simpa [sendJobKey] using hk.symm
          subst hkl
          exact Or.inl ⟨l, List.mem_append_right _ (by simp), rfl⟩
        · exact Or.inr (Or.inr (Or.inr (Or.inr ⟨j, mem_insert_middle _ hm, hk⟩)))
    refine ⟨?_, ?_⟩
    · rcases hin.cSeed with h | h | h | h | h
      · exact Or.inl h
      · exact Or.inr (Or.inl (List.mem_append_left _ h))
      · exact Or.inr (Or.inr (Or.inl h))
      · exact Or.inr (Or.inr (Or.inr (Or.inl h)))
      · obtain ⟨pg2, hm, hurl⟩ := h
        rw [hjobs] at hm
        rcases mem_middle_elim hm with hm2 | hm2
        · simp at hm2
        · exact Or.inr (Or.inr (Or.inr (Or.inr ⟨pg2, mem_insert_middle _ hm2, hurl⟩)))
    · intro p hp
      rcases hin.cClosure p hp with h | h
      · exact Or.inl h
      · exact Or.inr (hP p h)
  | finishJob pg j₁ j₂ hjobs =>
    have hscm : IndexJob.scan pg [] ∈ s.jobs := by
      rw [hjobs]; exact self_mem_middle _ j₁ j₂
    have hclosed : ∀ x ∈ fetchedLinks up ft seed (sitemapKey pg.url),
        SameHost x seed = true → (s.pages (sitemapKey x)).isSome := by
      have hfl : fetchedLinks up ft seed (sitemapKey pg.url) = pg.links :=
        fetchedLinks_of_prov hpath pg (hhost.hostJob _ hscm) (hhost.provJob _ hscm)
      obtain ⟨pre, h1, h2⟩ := hmain.jobsOK _ hscm
      have hpre : pre = pg.links := by simpa using h1.symm
      subst hpre
      rw [hfl]
      exact h2
    have hP : ∀ p, Pending s p → Pending { s with jobs := j₁ ++ j₂ } p ∨
        p = sitemapKey pg.url := by
      intro p hp
      rcases hp with ⟨x, hx, hk⟩ | ⟨x, hx, hk⟩ | ⟨x, hx, hk⟩ |
        ⟨j, hj, hk⟩ | ⟨j, hj, hk⟩
      · exact Or.inl (Or.inl ⟨x, hx, hk⟩)
      · exact Or.inl (Or.inr (Or.inl ⟨x, hx, hk⟩))
      · exact Or.inl (Or.inr (Or.inr (Or.inl ⟨x, hx, hk⟩)))
      · rw [hjobs] at hj
        rcases mem_middle_elim hj with hm | hm
        · subst hm
          exact Or.inr hk.symm
        · exact Or.inl (Or.inr (Or.inr (Or.inr (Or.inl ⟨j, hm, hk⟩))))
      · rw [hjobs] at hj
        rcases mem_middle_elim hj with hm | hm
        · subst hm; simp [sendJobKey] at hk
        · exact Or.inl (Or.inr (Or.inr (Or.inr (Or.inr ⟨j, hm, hk⟩))))
    refine ⟨?_, ?_⟩
    · rcases hin.cSeed with h | h | h | h | h
      · exact Or.inl h
      · exact Or.inr (Or.inl h)
      · exact Or.inr (Or.inr (Or.inl h))
      · exact Or.inr (Or.inr (Or.inr (Or.inl h)))
      · obtain ⟨pg2, hm, hurl⟩ := h
        rw [hjobs] at hm
        rcases mem_middle_elim hm with hm2 | hm2
        · simp at hm2
        · exact Or.inr (Or.inr (Or.inr (Or.inr ⟨pg2, hm2, hurl⟩)))
    · intro p hp
      rcases hin.cClosure p hp with h | h
      · exact Or.inl h
      · rcases hP p h with h2 | h2
        · exact Or.inr h2
        · subst h2
          exact Or.inl hclosed

theorem CompInv_reach {up : String → Option URL} {ft : URL → Option (List Tok)}
    {seed : URL} {s : CrawlState}
    (hpath : ∀ u v : URL, u.host = seed.host → v.host = seed.host →
      u.path = v.path → ft u = ft v)
    (htotal : ∀ u : URL, u.host = seed.host → ft u ≠ none)
    (h : CrawlReach up ft seed s) : CompInv up ft seed s := by
  induction h with
  | refl =>
    refine ⟨?_, ?_⟩
    · exact Or.inr (Or.inl (by simp [initState]))
    · intro p hp; simp [initState] at hp
  | tail hr hstep ih =>
    exact CompInv_step hpath htotal (HostInv_reach hr) (MainInv_reach hr) hstep ih

/-! ## Claim theorems about the crawl system -/

/-- C1: assuming every same-host fetch succeeds and pages are
identified by their path (the fetch oracle depends only on host and
path), the key set of the Pages map in any quiescent reachable state —
the Website `Crawler` returns — is exactly the set of distinct
normalized paths reachable from the seed via same-host links. -/
theorem Crawler_sitemap_complete (up : String → Option URL)
    (ft : URL → Option (List Tok)) (seed : URL) (s : CrawlState)
    (hpath : ∀ u v : URL, u.host = seed.host → v.host = seed.host →
      u.path = v.path → ft u = ft v)
    (htotal : ∀ u : URL, u.host = seed.host → ft u ≠ none)
    (hreach : CrawlReach up ft seed s) (hq : Quiescent s) :
    ∀ p, (s.pages p).isSome ↔ ReachablePath up ft seed p := by
  intro p
  constructor
  · exact (SoundInv_reach hpath hreach).sKeys p
  · intro hr
    obtain ⟨hq1, hq2, hq3, hq4⟩ := hq
    have hcomp := CompInv_reach hpath htotal hreach
    induction hr with
    | seed =>
      rcases hcomp.cSeed with h | h | h | h | h
      · exact h
      · rw [hq1] at h; simp at h
      · rw [hq3] at h; simp at h
      · obtain ⟨pg, hm, -⟩ := h; rw [hq2] at hm; simp at hm
      · obtain ⟨pg, hm, -⟩ := h; rw [hq4] at hm; simp at hm
    | step p2 l hr2 hl hsh ih =>
      rcases hcomp.cClosure p2 ih with h | h
      · exact h l hl hsh
      · exfalso
        rcases h with ⟨x, hx, -⟩ | ⟨x, hx, -⟩ | ⟨x, hx, -⟩ |
          ⟨j, hj, -⟩ | ⟨j, hj, -⟩
        · rw [hq1] at hx; simp at hx
        · rw [hq3] at hx; simp at hx
        · rw [hq2] at hx; simp at hx
        · rw [hq4] at hj; simp at hj
        · rw [hq4] at hj; simp at hj

/-- C2: no path is ever enqueued for fetching more than once — the
ghost `history` of paths pushed onto the `links` channel (including
the dispatcher's initial seed push) has no duplicates in any reachable
state — and whenever a queue push is pending, the pushed link's
placeholder is already in the sitemap (the membership check and the
placeholder insertion are one atomic critical section: the single
`scanNew` step of the model, mirroring the single guard acquisition at
crawler.go 203-210). -/
theorem IndexWorker_no_duplicate_enqueue (up : String → Option URL)
    (ft : URL → Option (List Tok)) (seed : URL) (s : CrawlState)
    (h : CrawlReach up ft seed s) :
    s.history.Nodup ∧
    (∀ j ∈ s.jobs, ∀ pg l rem, j = IndexJob.toSend pg l rem →
      (s.pages (sitemapKey l)).isSome = true) := by
  have hm := MainInv_reach h
  constructor
  · rw [List.nodup_iff_count_le_one]
    intro p
    have h2 := hm.nodup p
    rw [List.count_append] at h2
    omega
  · intro j hj pg l rem heq
    subst heq
    exact (hm.jobsOK _ hj).2.1

/-- C3: every link in a stored or queued Page has the host of
`Site.Domain` (the cross-host filter runs before the Page is built);
every URL on the request queue is same-host; and every sitemap key was
claimed by a same-host URL. -/
theorem Crawler_same_host_only (up : String → Option URL)
    (ft : URL → Option (List Tok)) (seed : URL) (s : CrawlState)
    (h : CrawlReach up ft seed s) :
    (∀ p w, s.pages p = some w → ∀ l ∈ w.links, SameHost l seed = true) ∧
    (∀ pg ∈ s.pageQueue, ∀ l ∈ pg.links, SameHost l seed = true) ∧
    (∀ u ∈ s.reqQueue, SameHost u seed = true) ∧
    (∀ u ∈ s.claimed, SameHost u seed = true) ∧
    (∀ p, (s.pages p).isSome → ∃ u ∈ s.claimed, sitemapKey u = p) := by
  have hh := HostInv_reach h
  refine ⟨?_, ?_, ?_, ?_, ?_⟩
  · intro p w hp l hl
    rw [SameHost_iff]
    exact hh.storedLinks p w hp l hl
  · intro pg hm l hl
    rw [SameHost_iff]
    obtain ⟨toks, -, hpa⟩ := hh.provPageQ pg hm
    have h2 := ParseAssets_host up pg.url toks pg.links pg.assets hpa l hl
    rw [h2]
    exact hh.hostPageQ pg hm
  · intro u hu
    rw [SameHost_iff]
    exact hh.hostReq u hu
  · intro u hu
    rw [SameHost_iff]
    exact hh.claimedHost u hu
  · intro p hp
    exact (hh.claimedKeys p).mp hp

/-- Each step only appends to the enqueue history. -/
theorem CrawlStep_history_mono {up : String → Option URL}
    {ft : URL → Option (List Tok)} {seed : URL} {s s' : CrawlState}
    (hst : CrawlStep up ft seed s s') (p : String) :
    s.history.count p ≤ s'.history.count p := by
  cases hst with
  | sendReq pg l rem j₁ j₂ hjobs =>
    show s.history.count p ≤ (s.history ++ [sitemapKey l]).count p
    rw [List.count_append]
    omega
  | takeReq u rest hq => exact Nat.le_refl _
  | fetchFail u f₁ f₂ hf hft => exact Nat.le_refl _
  | fetchOk u f₁ f₂ toks ls as hf hft hpa => exact Nat.le_refl _
  | takePage pg rest hq => exact Nat.le_refl _
  | storePage pg j₁ j₂ hjobs => exact Nat.le_refl _
  | scanSkip pg l rem j₁ j₂ hjobs hsh => exact Nat.le_refl _
  | scanOld pg l rem j₁ j₂ w hjobs hsh hpl => exact Nat.le_refl _
  | scanNew pg l rem j₁ j₂ hjobs hsh hpl => exact Nat.le_refl _
  | finishJob pg j₁ j₂ hjobs => exact Nat.le_refl _

theorem CrawlSteps_history_mono {up : String → Option URL}
    {ft : URL → Option (List Tok)} {seed : URL} {a b : CrawlState}
    (h : Relation.ReflTransGen (CrawlStep up ft seed) a b) (p : String) :
    a.history.count p ≤ b.history.count p := by
  induction h with
  | refl => exact Nat.le_refl _
  | tail hr hstep ih => exact Nat.le_trans ih (CrawlStep_history_mono hstep p)

/-- C6: when the fetch of a URL fails, the `RequestWorker` step drops
the URL: the sitemap, both channels and the enqueue history are
untouched and no Page is produced (`RequestWorkerProcess` yields no
page); the URL's path was enqueued exactly once and — since the
enqueue history of every later state still holds it exactly once — it
is never re-enqueued, so the URL is permanently lost to the crawl
(no retry).  The crawl itself continues: the step relation simply
proceeds from the successor state. -/
theorem RequestWorker_drops_failed_fetch (up : String → Option URL)
    (ft : URL → Option (List Tok)) (seed : URL) (s : CrawlState) (u : URL)
    (f₁ f₂ : List URL) (hreach : CrawlReach up ft seed s)
    (hf : s.fetching = f₁ ++ u :: f₂) (hft : ft u = none) :
    CrawlStep up ft seed s { s with fetching := f₁ ++ f₂ } ∧
    ({ s with fetching := f₁ ++ f₂ } : CrawlState).pages = s.pages ∧
    ({ s with fetching := f₁ ++ f₂ } : CrawlState).pageQueue = s.pageQueue ∧
    ({ s with fetching := f₁ ++ f₂ } : CrawlState).reqQueue = s.reqQueue ∧
    ({ s with fetching := f₁ ++ f₂ } : CrawlState).history = s.history ∧
    RequestWorkerProcess up ft u = .ok none ∧
    s.history.count (sitemapKey u) = 1 ∧
    (∀ s2, Relation.ReflTransGen (CrawlStep up ft seed)
      { s with fetching := f₁ ++ f₂ } s2 →
      s2.history.count (sitemapKey u) = 1) := by
  have hmain := MainInv_reach hreach
  have hmem : sitemapKey u ∈ storablePaths s := by
    have h1 : sitemapKey u ∈ s.fetching.map sitemapKey :=
      List.mem_map_of_mem sitemapKey (by rw [hf]; exact self_mem_middle u f₁ f₂)
    exact List.mem_append_left _ (List.mem_append_left _
      (List.mem_append_right _ h1))
  have hpos : 0 < (storablePaths s).count (sitemapKey u) :=
    Nat.pos_of_ne_zero (fun hz => (List.count_eq_zero.mp hz) hmem)
  have hcnt := hmain.counting (sitemapKey u)
  have hnd := hmain.nodup (sitemapKey u)
  rw [List.count_append] at hnd
  have hone : s.history.count (sitemapKey u) = 1 := by omega
  have hstep : CrawlStep up ft seed s { s with fetching := f₁ ++ f₂ } :=
    CrawlStep.fetchFail s u f₁ f₂ hf hft
  refine ⟨hstep, rfl, rfl, rfl, rfl, ?_, hone, ?_⟩
  · simp [RequestWorkerProcess, hft]
  · intro s2 hfut
    have hup : s2.history.count (sitemapKey u) ≥ 1 := by
      have := CrawlSteps_history_mono hfut (sitemapKey u)
      have h2 : ({ s with fetching := f₁ ++ f₂ } : CrawlState).history.count
          (sitemapKey u) = 1 := hone
      omega
    have hreach2 : CrawlReach up ft seed s2 :=
      Relation.ReflTransGen.trans (hreach.tail hstep) hfut
    have hnd2 := (MainInv_reach hreach2).nodup (sitemapKey u)
    rw [List.count_append] at hnd2
    omega

/-- One step cannot disturb a placeholder whose path has no live
obligation left: the placeholder value stays, no storable obligation
for the path appears, and no pending queue push for it appears. -/
theorem Frozen_step {up : String → Option URL} {ft : URL → Option (List Tok)}
    {seed : URL} {t t' : CrawlState} (p : String)
    (hst : CrawlStep up ft seed t t')
    (h1 : t.pages p = some zeroWebpage)
    (h2 : (storablePaths t).count p = 0)
    (h3 : (sendPaths t).count p = 0) :
    t'.pages p = some zeroWebpage ∧ (storablePaths t').count p = 0 ∧
      (sendPaths t').count p = 0 := by
  cases hst with
  | takeReq u rest hq =>
    refine ⟨h1, ?_, h3⟩
    simp only [storablePaths, hq, List.map_append, List.map_cons,
      List.map_nil, List.count_append, List.count_cons, List.count_nil] at h2 ⊢
    omega
  | fetchFail u f₁ f₂ hf hft =>
    refine ⟨h1, ?_, h3⟩
    simp only [storablePaths, hf, List.map_append, List.map_cons,
      List.map_nil, List.count_append, List.count_cons, List.count_nil] at h2 ⊢
    omega
  | fetchOk u f₁ f₂ toks ls as hf hft hpa =>
    refine ⟨h1, ?_, h3⟩
    simp only [storablePaths, hf, List.map_append, List.map_cons,
      List.map_nil, List.count_append, List.count_cons, List.count_nil] at h2 ⊢
    omega
  | takePage pg rest hq =>
    refine ⟨h1, ?_, ?_⟩
    · simp only [storablePaths, hq, List.map_append, List.map_cons,
        List.map_nil, List.count_append, List.count_cons, List.count_nil,
        List.filterMap_append, List.filterMap_cons, List.filterMap_nil,
        storeJobKey] at h2 ⊢
      omega
    · simp only [sendPaths, List.filterMap_append, List.filterMap_cons,
        List.filterMap_nil, sendJobKey, List.count_append] at h3 ⊢
      simpa using h3
  | storePage pg j₁ j₂ hjobs =>
    have hne : sitemapKey pg.url ≠ p := by
      intro heq
      have hmem : p ∈ storablePaths t := by
        have hx : storeJobKey (IndexJob.store pg) = some p := by
          simp [storeJobKey, heq]
        have hjm : IndexJob.store pg ∈ t.jobs := by
          rw [hjobs]; exact self_mem_middle _ j₁ j₂
        exact List.mem_append_right _
          (List.mem_filterMap.mpr ⟨IndexJob.store pg, hjm, hx⟩)
      exact (List.count_eq_zero.mp h2) hmem
    refine ⟨?_, ?_, ?_⟩
    · show mapStore t.pages (sitemapKey pg.url) pg p = some zeroWebpage
      rw [mapStore_other _ _ _ _ (fun hh => hne hh.symm)]
      exact h1
    · simp only [storablePaths, hjobs, List.map_append, List.map_cons,
        List.map_nil, List.count_append, List.count_cons, List.count_nil,
        List.filterMap_append, List.filterMap_cons, List.filterMap_nil,
        storeJobKey] at h2 ⊢
      omega
    · simp only [sendPaths, hjobs, List.filterMap_append, List.filterMap_cons,
        List.filterMap_nil, sendJobKey, List.count_append] at h3 ⊢
      simpa using h3
  | scanSkip pg l rem j₁ j₂ hjobs hsh =>
    refine ⟨h1, ?_, ?_⟩
    · simp only [storablePaths, hjobs, List.count_append,
        List.filterMap_append, List.filterMap_cons, storeJobKey] at h2 ⊢
      omega
    · simp only [sendPaths, hjobs, List.filterMap_append, List.filterMap_cons,
        sendJobKey, List.count_append] at h3 ⊢
      simpa using h3
  | scanOld pg l rem j₁ j₂ w hjobs hsh hpl =>
    refine ⟨h1, ?_, ?_⟩
    · simp only [storablePaths, hjobs, List.count_append,
        List.filterMap_append, List.filterMap_cons, storeJobKey] at h2 ⊢
      omega
    · simp only [sendPaths, hjobs, List.filterMap_append, List.filterMap_cons,
        sendJobKey, List.count_append] at h3 ⊢
      simpa using h3
  | scanNew pg l rem j₁ j₂ hjobs hsh hpl =>
    have hne : sitemapKey l ≠ p := by
      intro heq
      rw [heq, h1] at hpl
      exact absurd hpl (by simp)
    refine ⟨?_, ?_, ?_⟩
    · show mapStore t.pages (sitemapKey l) zeroWebpage p = some zeroWebpage
      rw [mapStore_other _ _ _ _ (fun hh => hne hh.symm)]
      exact h1
    · simp only [storablePaths, hjobs, List.count_append,
        List.filterMap_append, List.filterMap_cons, storeJobKey] at h2 ⊢
      omega
    · simp only [sendPaths, hjobs, List.filterMap_append, List.filterMap_cons,
        sendJobKey, List.count_append, List.count_cons] at h3 ⊢
      have hne2 : ¬ (sitemapKey l == p) = true := by simpa using hne
      simp [hne2] at h3 ⊢
      omega
  | sendReq pg l rem j₁ j₂ hjobs =>
    have hne : sitemapKey l ≠ p := by
      intro heq
      have hmem : p ∈ sendPaths t := by
        have hx : sendJobKey (IndexJob.toSend pg l rem) = some p := by
          simp [sendJobKey, heq]
        have hjm : IndexJob.toSend pg l rem ∈ t.jobs := by
          rw [hjobs]; exact self_mem_middle _ j₁ j₂
        exact List.mem_filterMap.mpr ⟨IndexJob.toSend pg l rem, hjm, hx⟩
      exact (List.count_eq_zero.mp h3) hmem
    refine ⟨h1, ?_, ?_⟩
    · simp only [storablePaths, hjobs, List.map_append, List.map_cons,
        List.map_nil, List.count_append, List.count_cons, List.count_nil,
        List.filterMap_append, List.filterMap_cons, storeJobKey] at h2 ⊢
      have : ¬ (sitemapKey l == p) = true := by simpa using hne
      simp [this]
      omega
    · simp only [sendPaths, hjobs, List.filterMap_append, List.filterMap_cons,
        sendJobKey, List.count_append, List.count_cons] at h3 ⊢
      omega
  | finishJob pg j₁ j₂ hjobs =>
    refine ⟨h1, ?_, ?_⟩
    · simp only [storablePaths, hjobs, List.count_append,
        List.filterMap_append, List.filterMap_cons, storeJobKey] at h2 ⊢
      omega
    · simp only [sendPaths, hjobs, List.filterMap_append, List.filterMap_cons,
        sendJobKey, List.count_append] at h3 ⊢
      simpa using h3

/-- C9: when the fetch of a URL fails after its path was claimed by a
placeholder insertion, the placeholder is never removed — in every
later state the path is still a key of the Pages map, mapped to the
zero-value Webpage (empty URL, nil Links, nil Assets). -/
theorem failed_fetch_placeholder_persists (up : String → Option URL)
    (ft : URL → Option (List Tok)) (seed : URL) (s : CrawlState) (u : URL)
    (f₁ f₂ : List URL) (hreach : CrawlReach up ft seed s)
    (hf : s.fetching = f₁ ++ u :: f₂) (hft : ft u = none)
    (hpl : s.pages (sitemapKey u) = some zeroWebpage) :
    ∀ s2, Relation.ReflTransGen (CrawlStep up ft seed)
      { s with fetching := f₁ ++ f₂ } s2 →
      s2.pages (sitemapKey u) = some zeroWebpage := by
  have hmain := MainInv_reach hreach
  have hmem : sitemapKey u ∈ storablePaths s := by
    have h1 : sitemapKey u ∈ s.fetching.map sitemapKey :=
      List.mem_map_of_mem sitemapKey (by rw [hf]; exact self_mem_middle u f₁ f₂)
    exact List.mem_append_left _ (List.mem_append_left _
      (List.mem_append_right _ h1))
  have hpos : 0 < (storablePaths s).count (sitemapKey u) :=
    Nat.pos_of_ne_zero (fun hz => (List.count_eq_zero.mp hz) hmem)
  have hcnt := hmain.counting (sitemapKey u)
  have hnd := hmain.nodup (sitemapKey u)
  rw [List.count_append] at hnd
  have hsto1 : (storablePaths s).count (sitemapKey u) = 1 := by omega
  have hsend0 : (sendPaths s).count (sitemapKey u) = 0 := by omega
  have hsplit : (storablePaths s).count (sitemapKey u) =
      (storablePaths { s with fetching := f₁ ++ f₂ }).count (sitemapKey u) + 1 := by
    simp only [storablePaths, hf, List.map_append, List.map_cons,
      List.map_nil, List.count_append, List.count_cons, List.count_nil]
    simp
    omega
  have hF1 : ({ s with fetching := f₁ ++ f₂ } : CrawlState).pages
      (sitemapKey u) = some zeroWebpage := hpl
  have hF2 : (storablePaths { s with fetching := f₁ ++ f₂ }).count
      (sitemapKey u) = 0 := by omega
  have hF3 : (sendPaths { s with fetching := f₁ ++ f₂ }).count
      (sitemapKey u) = 0 := hsend0
  intro s2 hfut
  have hfrozen : ∀ b, Relation.ReflTransGen (CrawlStep up ft seed)
      { s with fetching := f₁ ++ f₂ } b →
      b.pages (sitemapKey u) = some zeroWebpage ∧
      (storablePaths b).count (sitemapKey u) = 0 ∧
      (sendPaths b).count (sitemapKey u) = 0 := by
    intro b hb
    induction hb with
    | refl => exact ⟨hF1, hF2, hF3⟩
    | tail hr hstep ih => exact Frozen_step (sitemapKey u) hstep ih.1 ih.2.1 ih.2.2
  exact (hfrozen s2 hfut).1

/-! ## Concrete crawl executions for witnesses -/

/-- A concrete seed URL. -/
def wSeed : URL := ⟨"http", "h.io", "/", "", ""⟩

/-- The one link on the seed page. -/
def wLinkA : URL := ⟨"http", "h.io", "/a", "", ""⟩

/-- The seed page as fetched and parsed. -/
def wPage0 : Webpage := ⟨wSeed, [wLinkA], []⟩

/-- The page at "/a": no links. -/
def wPageA : Webpage := ⟨wLinkA, [], []⟩

/-- Token stream of the seed page: one anchor to "/a". -/
def wTok0 : List Tok := [.startTag .a [("href", "/a")]]

/-- Concrete url.Parse oracle. -/
def wUp : String → Option URL :=
  fun s => if s = "/a" then some ⟨"", "", "/a", "", ""⟩ else none

/-- Concrete fetch oracle: serves the seed page at path "/" and an
empty page everywhere else on the host; depends only on host and
path. -/
def wFt : URL → Option (List Tok) :=
  fun u => if u.host = "h.io" then
    (if u.path = "/" then some wTok0 else some []) else none

theorem wParse0 : ParseAssets wUp wSeed wTok0 = .ok ([wLinkA], []) := by
  simp [ParseAssets, ParseAssetsLoop, GetAttrURL, GetAttr, RelToAbsURL,
    FixScheme, URL.IsAbs, SameHost, urlString, wUp, wSeed, wTok0, wLinkA]
  decide

theorem Crawler_sitemap_complete_witness : ReachablePath wUp wFt wSeed "/a" := by
  have htr : CrawlReach wUp wFt wSeed _ :=
    Relation.ReflTransGen.head (CrawlStep.takeReq (initState wSeed) wSeed [] rfl)
      (Relation.ReflTransGen.head
        (CrawlStep.fetchOk _ wSeed [] [] wTok0 [wLinkA] [] rfl (by decide) wParse0)
      (Relation.ReflTransGen.head (CrawlStep.takePage _ wPage0 [] rfl)
      (Relation.ReflTransGen.head (CrawlStep.storePage _ wPage0 [] [] rfl)
      (Relation.ReflTransGen.head
        (CrawlStep.scanNew _ wPage0 wLinkA [] [] [] rfl (by decide) (by decide))
      (Relation.ReflTransGen.head (CrawlStep.sendReq _ wPage0 wLinkA [] [] [] rfl)
      (Relation.ReflTransGen.head (CrawlStep.finishJob _ wPage0 [] [] rfl)
      (Relation.ReflTransGen.head (CrawlStep.takeReq _ wLinkA [] rfl)
      (Relation.ReflTransGen.head
        (CrawlStep.fetchOk _ wLinkA [] [] [] [] [] rfl (by decide) rfl)
      (Relation.ReflTransGen.head (CrawlStep.takePage _ wPageA [] rfl)
      (Relation.ReflTransGen.head (CrawlStep.storePage _ wPageA [] [] rfl)
      (Relation.ReflTransGen.head (CrawlStep.finishJob _ wPageA [] [] rfl)
        Relation.ReflTransGen.refl)))))))))))
  refine ((Crawler_sitemap_complete wUp wFt wSeed _ ?_ ?_ htr ?_) "/a").mp ?_
  · intro u v hu hv hp
    have hu2 : u.host = "h.io" := hu
    have hv2 : v.host = "h.io" := hv
    simp [wFt, hu2, hv2, hp]
  · intro u hu
    have hu2 : u.host = "h.io" := hu
    simp [wFt, hu2]
    split <;> simp
  · exact ⟨rfl, rfl, rfl, rfl⟩
  · decide

theorem IndexWorker_no_duplicate_enqueue_witness :
    ([sitemapKey wSeed, sitemapKey wLinkA] : List String).Nodup := by
  have h := (IndexWorker_no_duplicate_enqueue wUp wFt wSeed _
    (Relation.ReflTransGen.head (CrawlStep.takeReq _ wSeed [] rfl)
      (Relation.ReflTransGen.head
        (CrawlStep.fetchOk _ wSeed [] [] wTok0 [wLinkA] [] rfl (by decide) wParse0)
      (Relation.ReflTransGen.head (CrawlStep.takePage _ wPage0 [] rfl)
      (Relation.ReflTransGen.head (CrawlStep.storePage _ wPage0 [] [] rfl)
      (Relation.ReflTransGen.head
        (CrawlStep.scanNew _ wPage0 wLinkA [] [] [] rfl (by decide) (by decide))
      (Relation.ReflTransGen.head (CrawlStep.sendReq _ wPage0 wLinkA [] [] [] rfl)
        Relation.ReflTransGen.refl))))))).1
  exact h

theorem Crawler_same_host_only_witness : SameHost wSeed wSeed = true :=
  (Crawler_same_host_only wUp wFt wSeed (initState wSeed)
    Relation.ReflTransGen.refl).2.2.1 wSeed (by simp [initState])

/-- A fetch oracle that always fails. -/
def wFtNone : URL → Option (List Tok) := fun _ => none

theorem RequestWorker_drops_failed_fetch_witness :
    RequestWorkerProcess wUp wFtNone wSeed = .ok none :=
  (RequestWorker_drops_failed_fetch wUp wFtNone wSeed _ wSeed [] []
    (Relation.ReflTransGen.head (CrawlStep.takeReq _ wSeed [] rfl)
      Relation.ReflTransGen.refl) rfl rfl).2.2.2.2.2.1

/-- A fetch oracle that serves the seed page and fails on every other
URL. -/
def wFt9 : URL → Option (List Tok) :=
  fun u => if u.path = "/" then some wTok0 else none

theorem wParse9 : ParseAssets wUp wSeed wTok0 = .ok ([wLinkA], []) := wParse0

theorem failed_fetch_placeholder_persists_witness :
    mapStore (mapStore (fun _ => none) (sitemapKey wSeed) wPage0)
      (sitemapKey wLinkA) zeroWebpage (sitemapKey wLinkA) = some zeroWebpage :=
  failed_fetch_placeholder_persists wUp wFt9 wSeed _ wLinkA [] []
    (Relation.ReflTransGen.head (CrawlStep.takeReq _ wSeed [] rfl)
      (Relation.ReflTransGen.head
        (CrawlStep.fetchOk _ wSeed [] [] wTok0 [wLinkA] [] rfl (by decide) wParse0)
      (Relation.ReflTransGen.head (CrawlStep.takePage _ wPage0 [] rfl)
      (Relation.ReflTransGen.head (CrawlStep.storePage _ wPage0 [] [] rfl)
      (Relation.ReflTransGen.head
        (CrawlStep.scanNew _ wPage0 wLinkA [] [] [] rfl (by decide) (by decide))
      (Relation.ReflTransGen.head (CrawlStep.sendReq _ wPage0 wLinkA [] [] [] rfl)
      (Relation.ReflTransGen.head (CrawlStep.finishJob _ wPage0 [] [] rfl)
      (Relation.ReflTransGen.head (CrawlStep.takeReq _ wLinkA [] rfl)
        Relation.ReflTransGen.refl))))))))
    rfl (by decide) (by decide) _ Relation.ReflTransGen.refl
